import Mathlib

/-!
# Verification of the name-matching and review engine (engine.py)

Shallow embedding of the core of `engine.py` (class `NameMatcher` and class
`ReviewEngine`) over `List Char` as the string type, together with theorems
settling the frozen claims about the specification.

Conventions of the embedding:
* Python strings are `List Char` (`Str` below); Python `str.strip()` is
  `pstrip` (the source only ever meets ASCII whitespace; the rare extra
  Unicode space characters accepted by Python's `strip` never occur in the
  engine's data and are not modelled).
* Python `str.isdigit()` is modelled as "nonempty and all chars are 0..9";
  the additional Unicode digit characters Python accepts never occur in the
  engine's inputs of interest.
* `difflib.SequenceMatcher(None, a, b).ratio()` is modelled exactly for
  `b.length < 200` (below the autojunk threshold, which holds for every
  master bare name): the Ratcliff/Obershelp matching-blocks total, with the
  same tie-breaking as difflib's `find_longest_match` (first maximal block
  in lexicographic start order).  Scores are kept as exact fraction pairs
  `(2*M, len(a)+len(b))`; float comparison against the literals `0.7` and
  between two such scores coincides with exact rational comparison because
  the scores are spaced far wider apart than double rounding error.
* Python's regex alternation patterns compiled by `_compile_alternation`
  are literal alternations sorted longest-first; their `finditer` is the
  scan `scanP` / `scanT` below (leftmost position, first alternative that
  fits, bump past each match).
-/

/-- Python strings as lists of characters. -/
abbrev Str : Type := List Char

/-- Convert a Lean string literal to the embedded string type. -/
def str (s : String) : Str := s.toList

/-- The whitespace characters stripped by Python `str.strip()`. -/
def pyWS (c : Char) : Bool :=
  c = ' ' || c = '\t' || c = '\n' || c = '\r' || c = '\x0b' || c = '\x0c'

/-- Left strip: Python `str.lstrip()`. -/
def ltrim (l : Str) : Str := l.dropWhile pyWS

/-- Right strip: Python `str.rstrip()`. -/
def rtrim (l : Str) : Str := (ltrim l.reverse).reverse

/-- Python `str.strip()`. -/
def pstrip (l : Str) : Str := rtrim (ltrim l)

/-- Drop characters through the first `)` inclusive; `none` when there is
no `)`.  Implements the tail left by the regex `^\([^)]*\)` once the
leading `(` is consumed. -/
def dropThroughRP : Str → Option Str
  | [] => none
  | c :: cs => if c = ')' then some cs else dropThroughRP cs

/-- Take the characters up to and including the first `)`. -/
def takeThroughRP : Str → Option Str
  | [] => none
  | c :: cs => if c = ')' then some [c] else (takeThroughRP cs).map (c :: ·)

/-- The substitution `re.sub(r'^\([^)]*\)', '', name)`: remove one leading
parenthetical group (the group ends at the first `)`), if present. -/
def subLeadingParen (name : Str) : Str :=
  match name with
  | [] => []
  | c :: rest =>
    if c = '(' then
      match dropThroughRP rest with
      | some tail => tail
      | none => c :: rest
    else c :: rest

/-- `NameMatcher._remove_prefix`: strip a leading parenthetical qualifier
and surrounding whitespace. -/
def removePfx (name : Str) : Str := pstrip (subLeadingParen name)

/-- `NameMatcher._has_prefix`: `re.match(r'^\([^)]+\)', name)` succeeds,
i.e. the string starts with `(`, the next character is not `)`, and a `)`
occurs later. -/
def hasPfx (name : Str) : Bool :=
  match name with
  | '(' :: c :: cs => decide (c ≠ ')') && cs.contains ')'
  | _ => false

/-- The group matched by `re.match(r'^\([^)]+\)', s)`, or `[]` when there
is no match (Python code uses `pm.group() if pm else ""`). -/
def leadGroup (s : Str) : Str :=
  if hasPfx s then
    match s with
    | '(' :: rest => '(' :: ((takeThroughRP rest).getD [])
    | _ => []
  else []

/-- Split a list at its last `(`: returns `(before the paren, after the
paren)` in input order, searching for the *last* occurrence. -/
def splitLastLP : Str → Option (Str × Str)
  | [] => none
  | c :: cs =>
    match splitLastLP cs with
    | some (a, b) => some (c :: a, b)
    | none => if c = '(' then some ([], cs) else none

/-- The search `re.search(r'\([^)]+\)$', s)`: if `s` ends in a trailing
parenthetical group `(...)` whose interior is nonempty and `)`-free,
return `(text before the group, the matched group)`.  The matched group
starts at the first `(` after the last earlier `)`. -/
def trailingSplit (s : Str) : Option (Str × Str) :=
  match s.reverse with
  | [] => none
  | c :: rest =>
    if c = ')' then
      let region := rest.takeWhile (fun c => decide (c ≠ ')'))
      let restTail := rest.dropWhile (fun c => decide (c ≠ ')'))
      match splitLastLP region with
      | some (a, b) =>
        if a.isEmpty then none
        else some ((b ++ restTail).reverse, ('(' :: a.reverse) ++ [')'])
      | none => none
    else none

/-!
## Master Index (`NameMatcher.__init__`)

The index owns, for a master list `names`:
* `master_set`: membership is plain list membership `· ∈ names`;
* `bare_to_official`: `officialsOf names b` lists, in input order, the
  canonical names whose bare body is `b`; its key view is `bareKeys`;
* `master_suffixes`: `suffixMem names g` tests membership of a trailing
  parenthetical `g` observed at the end of some bare body;
* `min_bare_length`: `minBareLen`.
-/

/-- The bare body of a canonical name (prefix stripped). -/
def bareOf (name : Str) : Str := removePfx name

/-- `bare_to_official[b]`: canonical names sharing bare body `b`, in input
order (the dict's lists are built by appending in input order). -/
def officialsOf (names : List Str) (b : Str) : List Str :=
  names.filter (fun n => bareOf n == b)

/-- `b in bare_to_official`. -/
def isBareKey (names : List Str) (b : Str) : Bool :=
  names.any (fun n => bareOf n == b)

/-- Helper for `dedupFirst`: drop elements already seen. -/
def dedupFirstAux {α : Type} [DecidableEq α] (seen : List α) :
    List α → List α
  | [] => []
  | x :: xs =>
    if x ∈ seen then dedupFirstAux seen xs
    else x :: dedupFirstAux (x :: seen) xs

/-- Keep the first occurrence of each element (insertion order of a
Python dict's keys / the order of `dict.items()`). -/
def dedupFirst {α : Type} [DecidableEq α] (l : List α) : List α :=
  dedupFirstAux [] l

/-- `self.bare_names = list(self.bare_to_official.keys())`. -/
def bareKeys (names : List Str) : List Str := dedupFirst (names.map bareOf)

/-- The trailing parenthetical of a bare body, when any
(`re.search(r'\([^)]+\)$', bare)`). -/
def bareSuffix (bare : Str) : Option Str := (trailingSplit bare).map (·.2)

/-- Membership in `self.master_suffixes`. -/
def suffixMem (names : List Str) (g : Str) : Bool :=
  names.any (fun n => bareSuffix (bareOf n) == some g)

/-- `self.min_bare_length = min((len(name) for name in self.bare_names),
default=0)`. -/
def minBareLen (names : List Str) : Nat :=
  match (bareKeys names).map List.length with
  | [] => 0
  | x :: xs => xs.foldl Nat.min x

/-- `NameMatcher._normalize`: strip the leading parenthetical, then strip
a trailing parenthetical unless it is a known master suffix. -/
def normalizeM (names : List Str) (text : Str) : Str :=
  let result := removePfx text
  match trailingSplit result with
  | some (before, grp) =>
    if suffixMem names grp then result else pstrip before
  | none => result

/-- `NameMatcher.EXCLUDE_WORDS`. -/
def excludeWords : List Str :=
  [str "공사명", str "사업명", str "현장명", str "프로젝트명", str "프로젝트",
   str "일치여부", str "일치", str "불일치", str "판정", str "결과",
   str "공사명칭", str "명칭", str "비고", str "구분", str "번호",
   str "No", str "no", str "NO", str "합계", str "소계", str "총계"]

/-- Python `str.isdigit()` (ASCII digits; see the header note). -/
def isdigitPy (l : Str) : Bool := !l.isEmpty && l.all Char.isDigit

/-- `NameMatcher._is_excluded`: header words, strings of length ≤ 2, and
numeric-only strings (after removing spaces, dashes and dots) are never
candidates. -/
def isExcluded (text : Str) : Bool :=
  let clean := pstrip text
  if excludeWords.contains clean then true
  else if clean.length ≤ 2 then true
  else isdigitPy (clean.filter (fun c => !(c = ' ' || c = '-' || c = '.')))

/-- `NameMatcher._find_containing_matches`: canonical names whose bare
body is in a two-way prefix containment relation with `normalized` (both
sides at least 4 characters). -/
def containingMatches (names : List Str) (normalized : Str) : List Str :=
  ((bareKeys names).map (fun bare =>
    if bare.length < 4 || normalized.length < 4 then []
    else if normalized.isPrefixOf bare || bare.isPrefixOf normalized then
      officialsOf names bare
    else [])).flatten

/-!
## Similarity (`difflib.SequenceMatcher`, used by `_best_similarity`)
-/

/-- Length of the common prefix of two lists. -/
def commonLen : Str → Str → Nat
  | a :: as, b :: bs => if a = b then commonLen as bs + 1 else 0
  | _, _ => 0

/-- `SequenceMatcher.find_longest_match` on the windows
`[alo,ahi) × [blo,bhi)` (no junk, which holds in this program since every
second sequence is a bare name far below the autojunk threshold): the
longest matching block, ties broken towards the smallest start in `a`,
then the smallest start in `b` — exactly difflib's first maximal block. -/
def flm (a b : Str) (alo ahi blo bhi : Nat) : Nat × Nat × Nat :=
  (List.range' alo (ahi - alo)).foldl (fun best i =>
    (List.range' blo (bhi - blo)).foldl (fun best j =>
      let k := Nat.min (commonLen (a.drop i) (b.drop j))
        (Nat.min (ahi - i) (bhi - j))
      if best.2.2 < k then (i, j, k) else best) best) (alo, blo, 0)

/-- Total size of the matching blocks (the `M` in
`ratio = 2*M / (len(a)+len(b))`), recursing on both sides of each longest
block as `get_matching_blocks` does.  `fuel` only serves termination; any
`fuel ≥ (ahi-alo) + (bhi-blo)` computes the exact total because every
recursive call shrinks the combined window size. -/
def matchTotal (a b : Str) : Nat → Nat → Nat → Nat → Nat → Nat
  | 0, _, _, _, _ => 0
  | fuel + 1, alo, ahi, blo, bhi =>
    match flm a b alo ahi blo bhi with
    | (i, j, k) =>
      if k = 0 then 0
      else
        matchTotal a b fuel alo i blo j + k +
          matchTotal a b fuel (i + k) ahi (j + k) bhi

/-- A similarity ratio kept as an exact fraction `num/den` (the source
compares IEEE doubles; for these fractions the comparisons coincide with
exact rational comparison, see the header note). -/
structure Score where
  num : Nat
  den : Nat
deriving DecidableEq

/-- `SequenceMatcher(None, a, b).ratio()` as an exact fraction:
`2*M/(len(a)+len(b))`, and `1.0` when both are empty. -/
def seqRatio (a b : Str) : Score :=
  let t := a.length + b.length
  if t = 0 then ⟨1, 1⟩
  else ⟨2 * matchTotal a b (t + 1) 0 a.length 0 b.length, t⟩

/-- `score > best_score` on exact fractions. -/
def scoreLt (x y : Score) : Bool := decide (x.num * y.den < y.num * x.den)

/-- `best_score >= 0.7` on exact fractions. -/
def scoreGe07 (x : Score) : Bool := decide (7 * x.den ≤ 10 * x.num)

/-- `NameMatcher._best_similarity`: best ratio over all bare bodies, the
representative canonical name being `officials[0]` of the best bare body;
`(None, 0.0)` before any strict improvement.  (The source's
`_similarity_cache` is pure memoisation and is not modelled.) -/
def bestSim (names : List Str) (text : Str) : Option Str × Score :=
  (bareKeys names).foldl (fun best bare =>
    let score := seqRatio text bare
    if scoreLt best.2 score then
      (some ((officialsOf names bare).headD []), score)
    else best)
    (none, ⟨0, 1⟩)

/-!
## Classifier (`NameMatcher.check` and `_describe_mismatch`)
-/

/-- The status string `"일치"` (match). -/
def sMatch : Str := str "일치"

/-- The status string `"불일치"` (mismatch). -/
def sMis : Str := str "불일치"

/-- The result dict returned by `check`: `{input, status, suggestion,
issue}`.  `suggestion` is an `Option` because the step-3 branch stores
`best_name`, which is `None` in Python before any similarity improvement. -/
structure CheckResult where
  input : Str
  status : Str
  suggestion : Option Str
  issue : Str
deriving DecidableEq

/-- `" / ".join(officials)`. -/
def joinSlash (l : List Str) : Str := List.intercalate (str " / ") l

/-- Decimal rendering of a natural number. -/
def natToStr (n : Nat) : Str := Nat.toDigits 10 n

/-- `f"{best_score * 100:.0f}"`: round the percentage to the nearest
integer, ties to even (the source formats an IEEE double; for the exact
fractions arising here the two renderings agree away from exact halves,
and the claims never depend on the rendered digits). -/
def pctNat (s : Score) : Nat :=
  let q := (100 * s.num) / s.den
  let r := (100 * s.num) % s.den
  if 2 * r < s.den then q
  else if s.den < 2 * r then q + 1
  else if q % 2 = 0 then q else q + 1

/-- The percentage text interpolated into the step-3 issue. -/
def pctStr (s : Score) : Str := natToStr (pctNat s)

/-- Python string interpolation of a possibly-`None` value. -/
def optRender : Option Str → Str
  | some s => s
  | none => str "None"

/-- The numbered candidate display of the ambiguous-containment issue:
`"\n".join(f"  {i + 1}. {c}" ...)`. -/
def enumDisplay (cs : List Str) : Str :=
  List.intercalate (str "\n")
    (cs.enum.map (fun p => str "  " ++ natToStr (p.1 + 1) ++ str ". " ++ p.2))

/-- `NameMatcher._describe_mismatch`: compare the input's leading prefix
with the canonical name's, flag an unnecessary trailing parenthetical,
default to "접두어 누락" (prefix missing). -/
def describeMismatch (original normalized inputPfx official : Str) : Str :=
  let officialPfx := leadGroup official
  let reasons : List Str :=
    if inputPfx.isEmpty then [str "접두어 누락"]
    else if inputPfx ≠ officialPfx then
      [str "접두어 불일치 (" ++ inputPfx ++ str "→" ++ officialPfx ++ str ")"]
    else []
  -- (the source's `normalized != original` comparison only guards a `pass`)
  let reasons :=
    match trailingSplit (removePfx original) with
    | some (_, sfx) =>
      if !(sfx.isSuffixOf (removePfx official)) then
        reasons ++ [str "불필요한 후미 " ++ sfx]
      else reasons
    | none => reasons
  let reasons := if reasons.isEmpty then [str "접두어 누락"] else reasons
  List.intercalate (str " + ") reasons ++ str " → 공식: " ++ official

/-- STEP 3 of `check`: similarity against the best bare body. -/
def step3M (names : List Str) (text normalized : Str) : Option CheckResult :=
  let bn := (bestSim names normalized).1
  let bs := (bestSim names normalized).2
  if scoreGe07 bs then
    some ⟨text, sMis, bn,
      str "오탈자 추정 (유사도 " ++ pctStr bs ++ str "%) → 공식: " ++
        optRender bn⟩
  else none

/-- STEP 2 of `check` (containment), falling through to STEP 3 when no
containment fires or when the single containment looks like a one-character
typo append. -/
def step2M (names : List Str) (text normalized : Str) : Option CheckResult :=
  match containingMatches names normalized with
  | [] => step3M names text normalized
  | [c] =>
    if (removePfx c).isPrefixOf normalized &&
        decide (normalized.length - (removePfx c).length ≤ 1) then
      step3M names text normalized
    else
      some ⟨text, sMis, some c, str "명칭 불완전 → 공식: " ++ c⟩
  | cs =>
    some ⟨text, sMis, some (joinSlash cs),
      str "특정불가 (유사 " ++ natToStr cs.length ++ str "건):" ++ str "\n" ++
        enumDisplay cs⟩

/-- STEP 1 of `check`: the normalized form is a known bare body.  The `[]`
arm is unreachable when the bare key test succeeded (a key always maps to
a nonempty canonical list). -/
def step1M (names : List Str) (text normalized : Str) (hasP : Bool)
    (inPfx : Str) : Option CheckResult :=
  match officialsOf names normalized with
  | [] => none
  | [off] =>
    some ⟨text, sMis, some off, describeMismatch text normalized inPfx off⟩
  | offs =>
    match offs.find? (fun off => text == off) with
    | some off => some ⟨text, sMatch, some off, []⟩
    | none =>
      if hasP then
        match offs.find? (fun off => off == inPfx ++ normalized) with
        | some mo =>
          some ⟨text, sMis, some mo, describeMismatch text normalized inPfx mo⟩
        | none =>
          some ⟨text, sMis, some (joinSlash offs),
            str "접두어 불일치 → 후보: " ++ joinSlash offs⟩
      else
        some ⟨text, sMis, some (joinSlash offs),
          str "접두어 누락 → 후보: " ++ joinSlash offs⟩

/-- `NameMatcher.check`: classify a single string against the master
index; `none` models Python `None` ("not a project name"). -/
def checkM (names : List Str) (input : Str) : Option CheckResult :=
  let text := pstrip input
  if text.isEmpty || isExcluded text then none
  else if text ∈ names then some ⟨text, sMatch, some text, []⟩
  else
    let normalized := normalizeM names text
    let hasP := hasPfx text
    let inPfx := if hasP then leadGroup text else []
    if isBareKey names normalized then step1M names text normalized hasP inPfx
    else step2M names text normalized

/-!
## Alternation matchers (`_compile_alternation` and `finditer`)
-/

/-- The token class `[0-9A-Za-z가-힣]` used by the boundary lookarounds. -/
def isTokChar (c : Char) : Bool :=
  ('0' ≤ c && c ≤ '9') || ('A' ≤ c && c ≤ 'Z') || ('a' ≤ c && c ≤ 'z') ||
    (0xAC00 ≤ c.val && c.val ≤ 0xD7A3)

/-- Stable insertion of `x` before the first element that does not have to
come strictly before it. -/
def insertStable {α : Type} (le : α → α → Bool) (x : α) : List α → List α
  | [] => [x]
  | y :: ys => if le x y then x :: y :: ys else y :: insertStable le x ys

/-- A stable sort (agrees with Python's stable `sorted` whenever `le` is a
total preorder, which every use below is). -/
def sortStable {α : Type} (le : α → α → Bool) : List α → List α
  | [] => []
  | x :: xs => insertStable le x (sortStable le xs)

/-- `sorted(items, key=len, reverse=True)`: stable, longest first. -/
def sortLenDesc (l : List Str) : List Str :=
  sortStable (fun a b => decide (b.length ≤ a.length)) l

/-- `_compile_alternation` keeps only the nonempty items
(`... for item in items if item`). -/
def compileAlts (items : List Str) : List Str :=
  items.filter (fun a => !a.isEmpty)

/-- First alternative that matches at the current position (the regex
alternation tries alternatives in order). -/
def firstAlt (alts : List Str) (s : Str) : Option Str :=
  alts.find? (fun a => !a.isEmpty && a.isPrefixOf s)

/-- Fuel-driven body of `scanP` (every step consumes at least one
character, so `fuel = s.length` computes the full scan; the fuel only
serves structural termination). -/
def scanPF (alts : List Str) : Nat → Nat → Str → List (Nat × Str)
  | 0, _, _ => []
  | _, _, [] => []
  | fuel + 1, pos, c :: rest =>
    match firstAlt alts (c :: rest) with
    | some a =>
      (pos, a) :: scanPF alts fuel (pos + a.length) ((c :: rest).drop a.length)
    | none => scanPF alts fuel (pos + 1) rest

/-- `pattern.finditer(text)` for a plain literal alternation: scan left to
right, at each position take the first alternative that matches, then
resume after it.  Returns `(start position, matched string)` pairs. -/
def scanP (alts : List Str) (pos : Nat) (s : Str) : List (Nat × Str) :=
  scanPF alts s.length pos s

/-- The lookbehind `(?<![0-9A-Za-z가-힣])` against the previous character
(`none` at the start of the text). -/
def prevOk : Option Char → Bool
  | none => true
  | some c => !isTokChar c

/-- The lookahead `(?![0-9A-Za-z가-힣])` against the rest of the text. -/
def nextOk : Str → Bool
  | [] => true
  | c :: _ => !isTokChar c

/-- First alternative matching at this position whose end also satisfies
the lookahead (the regex backtracks to later alternatives when the
lookahead fails). -/
def firstAltTok (alts : List Str) (s : Str) : Option Str :=
  alts.find? (fun a => !a.isEmpty && a.isPrefixOf s && nextOk (s.drop a.length))

/-- Fuel-driven body of `scanT` (fuel as in `scanPF`). -/
def scanTF (alts : List Str) : Nat → Option Char → Nat → Str → List (Nat × Str)
  | 0, _, _, _ => []
  | _, _, _, [] => []
  | fuel + 1, prev, pos, c :: rest =>
    if prevOk prev then
      match firstAltTok alts (c :: rest) with
      | some a =>
        (pos, a) ::
          scanTF alts fuel (some (a.getLastD c)) (pos + a.length)
            ((c :: rest).drop a.length)
      | none => scanTF alts fuel (some c) (pos + 1) rest
    else scanTF alts fuel (some c) (pos + 1) rest

/-- `finditer` for the token-boundary-constrained bare-name alternation.
`prev` is the character before the current position. -/
def scanT (alts : List Str) (prev : Option Char) (pos : Nat) (s : Str) :
    List (Nat × Str) :=
  scanTF alts s.length prev pos s

/-- `NameMatcher._extract_prefixed_candidate`'s pattern
`(\([^)]+\)\s*bare)(?![0-9A-Za-z가-힣])` tried at one position. -/
def matchPfxAt (bare : Str) (s : Str) : Option Str :=
  match s with
  | '(' :: rest =>
    match takeThroughRP rest with
    | some g =>
      if g.length < 2 then none
      else
        let u := rest.drop g.length
        let wsPart := u.takeWhile pyWS
        let u2 := u.drop wsPart.length
        if bare.isPrefixOf u2 && nextOk (u2.drop bare.length) then
          some (pstrip (('(' :: g) ++ wsPart ++ bare))
        else none
    | none => none
  | _ => none

/-- `NameMatcher._extract_prefixed_candidate`: leftmost occurrence of
`(prefix) bare` not embedded in a longer token, already stripped. -/
def searchPfx (bare : Str) : Str → Option Str
  | [] => none
  | c :: rest =>
    match matchPfxAt bare (c :: rest) with
    | some g => some g
    | none => searchPfx bare rest

/-- `NameMatcher.find_all_in_text`: all master-related strings found in a
text fragment, in discovery order. -/
def findAllInText (names : List Str) (input : Str) : List Str :=
  let text := pstrip input
  if text.length < 3 then []
  else if isExcluded text then []
  else if text ∈ names then [text]
  else if isBareKey names text then [text]
  else
    let norm := normalizeM names text
    if decide (norm ≠ text) && isBareKey names norm then [text]
    else if text.length < minBareLen names then []
    else
      let foundC := (scanP (compileAlts (sortLenDesc names)) 0 text).foldl
        (fun found pm => if pm.2 ∈ found then found else found ++ [pm.2]) []
      let found :=
        (scanT (compileAlts (sortLenDesc (bareKeys names))) none 0 text).foldl
          (fun found pm =>
            let offs := officialsOf names pm.2
            if offs.isEmpty then found
            else if offs.any (fun off => decide (off ∈ found)) then found
            else
              match searchPfx pm.2 text with
              | some pfxd => if pfxd ∈ found then found else found ++ [pfxd]
              | none => if pm.2 ∈ found then found else found ++ [pm.2])
          foundC
      if found.isEmpty then
        if !(containingMatches names norm).isEmpty then [text]
        else if scoreGe07 (bestSim names norm).2 then [text]
        else found
      else found

/-!
## Review Engine (`ReviewEngine`)

Per-format text extraction is outside the core; `reviewFile` takes the
outcome of `extract_text_from_file` as an `Except` value (the raised
exception's message, or the extracted `(location, text)` pairs).  The
`file`/`path` passthrough fields of the Python result dict are
presentation only and are not modelled.
-/

/-- One entry of `_build_full_text_with_offsets`: start/end offsets of a
fragment in the joined text, its location label and its stripped text. -/
structure Frag where
  start : Nat
  stop : Nat
  loc : Str
  txt : Str
deriving DecidableEq

/-- `ReviewEngine._build_full_text_with_offsets` (parts and offset
entries; empty fragments are skipped and each part is followed by one
`"\n"` in the joined text). -/
def buildParts : List (Str × Str) → Nat → List Str × List Frag
  | [], _ => ([], [])
  | (loc, raw) :: rest, cursor =>
    let t := pstrip raw
    if t.isEmpty then buildParts rest cursor
    else
      let pf := buildParts rest (cursor + t.length + 1)
      (t :: pf.1, ⟨cursor, cursor + t.length, loc, t⟩ :: pf.2)

/-- `ReviewEngine._find_offset_index` + the lookup it guards: resolve the
fragment whose offset range contains `pos` (`bisect_right` over the sorted
start offsets, then a range check). -/
def findFrag (frags : List Frag) (pos : Nat) : Option Frag :=
  let cnt := (frags.filter (fun f => decide (f.start ≤ pos))).length
  if cnt = 0 then none
  else
    match frags[cnt - 1]? with
    | some f => if f.start ≤ pos && pos < f.stop then some f else none
    | none => none

/-- A regex match event of `review_file`: `(match start, kind, candidate,
location)` with kind 0 for canonical-name hits and 1 for bare-name hits. -/
structure MEv where
  start : Nat
  kind : Nat
  cand : Str
  loc : Str
deriving DecidableEq

/-- The sort key `(item[0], item[1])` of `match_events.sort`. -/
def evLe (x y : MEv) : Bool :=
  decide (x.start < y.start) ||
    (decide (x.start = y.start) && decide (x.kind ≤ y.kind))

/-- The candidate/location stream `review_file` feeds to
`consume_candidate`: resolved and sorted regex match events over the full
text, then the `find_all_in_text` fallback over uncovered fragments of at
most 80 characters. -/
def reviewEventsAll (names : List Str) (items : List (Str × Str)) :
    List (Str × Str) :=
  let bp := buildParts items 0
  let frags := bp.2
  let full := List.intercalate (str "\n") bp.1
  if full.isEmpty then []
  else
    let offHits := scanP (compileAlts (sortLenDesc names)) 0 full
    let bareHits := scanT (compileAlts (sortLenDesc (bareKeys names))) none 0 full
    let offEvents := offHits.filterMap (fun pm =>
      (findFrag frags pm.1).map (fun f => MEv.mk pm.1 0 pm.2 f.loc))
    let bareEvents := bareHits.filterMap (fun pm =>
      (findFrag frags pm.1).map (fun f =>
        MEv.mk pm.1 1 ((searchPfx pm.2 f.txt).getD pm.2) f.loc))
    let direct := (sortStable evLe (offEvents ++ bareEvents)).map
      (fun e => (e.cand, e.loc))
    let hits := offHits ++ bareHits
    let fallback := (frags.map (fun f =>
      if hits.any (fun pm => decide (findFrag frags pm.1 = some f)) then []
      else if 80 < f.txt.length then []
      else (findAllInText names f.txt).map (fun c => (c, f.loc)))).flatten
    direct ++ fallback

/-- One reported line of a file review: a check result together with its
merged location string, plus the location list `checked_locations` keeps
for it. -/
structure Entry where
  res : CheckResult
  loc : Str
  locs : List Str
deriving DecidableEq

/-- `consume_candidate`: a repeated mismatching candidate accumulates a
new distinct location label (comma-joined); a repeated matched candidate
is ignored; a new candidate is classified once and recorded. -/
def consume (names : List Str) (st : List (Str × Entry)) (cand loc : Str) :
    List (Str × Entry) :=
  match st.find? (fun p => p.1 == cand) with
  | some p =>
    if p.2.res.status == sMis then
      if loc ∈ p.2.locs then st
      else
        st.map (fun q =>
          if q.1 == cand then
            (q.1, ⟨q.2.res, List.intercalate (str ", ") (q.2.locs ++ [loc]),
              q.2.locs ++ [loc]⟩)
          else q)
    else st
  | none =>
    match checkM names cand with
    | none => st
    | some r => st ++ [(cand, ⟨r, loc, [loc]⟩)]

/-- Feed a candidate/location stream through `consume_candidate`. -/
def runConsume (names : List Str) :
    List (Str × Entry) → List (Str × Str) → List (Str × Entry)
  | st, [] => st
  | st, (c, l) :: evs => runConsume names (consume names st c l) evs

/-- The per-file result dict of `review_file`. -/
structure FileResult where
  total : Nat
  matched : Nat
  mismatched : Nat
  overall : Str
  details : List (CheckResult × Str)
  error : Option Str
deriving DecidableEq

/-- The pure part of `ReviewEngine.review_file` after extraction:
classify the candidate stream and aggregate counts and overall status. -/
def reviewItems (names : List Str) (items : List (Str × Str)) : FileResult :=
  let st := runConsume names [] (reviewEventsAll names items)
  let details := st.map (fun p => (p.2.res, p.2.loc))
  let matched := (details.filter (fun d => d.1.status == sMatch)).length
  let mismatched := (details.filter (fun d => d.1.status == sMis)).length
  let total := details.length
  let overall :=
    if total = 0 then str "명칭없음"
    else if mismatched = 0 then str "적합"
    else str "검토필요"
  ⟨total, matched, mismatched, overall, details, none⟩

/-- `ReviewEngine.review_file`: a failed extraction short-circuits to the
error result (`"오류"`) with zero counts and the message captured; a
successful one is reviewed by `reviewItems`. -/
def reviewFile (names : List Str) (ext : Except Str (List (Str × Str))) :
    FileResult :=
  match ext with
  | .error e => ⟨0, 0, 0, str "오류", [], some e⟩
  | .ok items => reviewItems names items

/-!
## Basic lemmas about the string utilities
-/

theorem ltrim_ltrim (l : Str) : ltrim (ltrim l) = ltrim l := by
  induction l with
  | nil => rfl
  | cons c cs ih =>
    by_cases h : pyWS c = true
    · have e : ltrim (c :: cs) = ltrim cs := by
        simp [ltrim, List.dropWhile_cons, h]
      rw [e]
      exact ih
    · have e : ltrim (c :: cs) = c :: cs := by
        simp [ltrim, List.dropWhile_cons, h]
      rw [e]
      exact e

theorem ltrim_head_not_ws {l : Str} {c : Char}
    (h : (ltrim l).head? = some c) : pyWS c = false := by
  induction l with
  | nil => simp [ltrim] at h
  | cons x xs ih =>
    by_cases hx : pyWS x = true
    · rw [show ltrim (x :: xs) = ltrim xs by
        simp [ltrim, List.dropWhile_cons, hx]] at h
      exact ih h
    · rw [show ltrim (x :: xs) = x :: xs by
        simp [ltrim, List.dropWhile_cons, hx]] at h
      simp only [List.head?_cons, Option.some.injEq] at h
      subst h
      exact eq_false_of_ne_true hx

theorem ltrim_suffix (l : Str) : ltrim l <:+ l := List.dropWhile_suffix pyWS

theorem rtrim_pfx (l : Str) : rtrim l <+: l := by
  have h : ltrim l.reverse <:+ l.reverse := ltrim_suffix l.reverse
  have h2 : (ltrim l.reverse).reverse <+: l.reverse.reverse :=
    List.reverse_prefix.mpr h
  rwa [List.reverse_reverse] at h2

theorem rtrim_rtrim (l : Str) : rtrim (rtrim l) = rtrim l := by
  unfold rtrim
  rw [List.reverse_reverse, ltrim_ltrim]

theorem ltrim_rtrim_ltrim (l : Str) : ltrim (rtrim (ltrim l)) = rtrim (ltrim l) := by
  cases h : rtrim (ltrim l) with
  | nil => simp [ltrim]
  | cons c cs =>
    have hpre : rtrim (ltrim l) <+: ltrim l := rtrim_pfx _
    rw [h] at hpre
    obtain ⟨t, ht⟩ := hpre
    have hh : (ltrim l).head? = some c := by rw [← ht]; rfl
    have hc := ltrim_head_not_ws hh
    simp [ltrim, List.dropWhile_cons, hc]

theorem pstrip_pstrip (l : Str) : pstrip (pstrip l) = pstrip l := by
  unfold pstrip
  rw [ltrim_rtrim_ltrim, rtrim_rtrim]

theorem length_ltrim_le (l : Str) : (ltrim l).length ≤ l.length :=
  (ltrim_suffix l).length_le

theorem length_rtrim_le (l : Str) : (rtrim l).length ≤ l.length :=
  (rtrim_pfx l).length_le

theorem length_pstrip_le (l : Str) : (pstrip l).length ≤ l.length :=
  le_trans (length_rtrim_le _) (length_ltrim_le _)

theorem pstrip_eq_of_length {l : Str} (h : (pstrip l).length = l.length) :
    pstrip l = l := by
  have h1 : (rtrim (ltrim l)).length ≤ (ltrim l).length := length_rtrim_le _
  have h2 : (ltrim l).length ≤ l.length := length_ltrim_le _
  have hl : (ltrim l).length = l.length := by
    have : (pstrip l).length ≤ (ltrim l).length := h1
    omega
  have hlt : ltrim l = l := (ltrim_suffix l).eq_of_length hl
  have hr : (rtrim l).length = l.length := by
    unfold pstrip at h
    rw [hlt] at h
    exact h
  have := (rtrim_pfx l).eq_of_length hr
  unfold pstrip
  rw [hlt, this]

theorem dropThroughRP_length {l t : Str} (h : dropThroughRP l = some t) :
    t.length < l.length := by
  induction l generalizing t with
  | nil => simp [dropThroughRP] at h
  | cons c cs ih =>
    by_cases hc : c = ')'
    · rw [show dropThroughRP (c :: cs) = some cs by
        simp [dropThroughRP, hc]] at h
      cases h
      simp
    · rw [show dropThroughRP (c :: cs) = dropThroughRP cs by
        simp [dropThroughRP, hc]] at h
      have := ih h
      simp
      omega

theorem subLeadingParen_cases (s : Str) :
    subLeadingParen s = s ∨ (subLeadingParen s).length < s.length := by
  cases s with
  | nil => exact Or.inl rfl
  | cons c rest =>
    by_cases hc : c = '('
    · subst hc
      cases h : dropThroughRP rest with
      | none =>
        left
        simp [subLeadingParen, h]
      | some tail =>
        right
        have hlen := dropThroughRP_length h
        have e : subLeadingParen ('(' :: rest) = tail := by
          simp [subLeadingParen, h]
        rw [e, List.length_cons]
        omega
    · left
      simp [subLeadingParen, hc]

theorem splitLastLP_eq {l a b : Str} (h : splitLastLP l = some (a, b)) :
    l = a ++ '(' :: b := by
  induction l generalizing a b with
  | nil => simp [splitLastLP] at h
  | cons c cs ih =>
    cases hcs : splitLastLP cs with
    | some p =>
      obtain ⟨a', b'⟩ := p
      rw [show splitLastLP (c :: cs) = some (c :: a', b') by
        simp [splitLastLP, hcs]] at h
      cases h
      simp [ih hcs]
    | none =>
      by_cases hc : c = '('
      · subst hc
        rw [show splitLastLP ('(' :: cs) = some ([], cs) by
          simp [splitLastLP, hcs]] at h
        cases h
        simp
      · rw [show splitLastLP (c :: cs) = none by
          simp [splitLastLP, hcs, hc]] at h
        cases h

theorem trailingSplit_eq {s b g : Str} (h : trailingSplit s = some (b, g)) :
    s = b ++ g ∧ ∃ a : Str, a ≠ [] ∧ g = ('(' :: a.reverse) ++ [')'] := by
  simp only [trailingSplit] at h
  split at h
  next => cases h
  next c rest hr =>
    split at h
    case isFalse => cases h
    case isTrue hc =>
      subst hc
      split at h
      next a b' hs =>
        split at h
        case isTrue => cases h
        case isFalse ha =>
          cases h
          constructor
          · have hst : s = rest.reverse ++ [')'] := by
              have h2 := congrArg List.reverse hr
              rwa [List.reverse_reverse, List.reverse_cons] at h2
            have hrest := List.takeWhile_append_dropWhile
              (p := fun c => decide (c ≠ ')')) (l := rest)
            rw [splitLastLP_eq hs] at hrest
            rw [hst]
            conv_lhs => rw [← hrest]
            simp [List.reverse_append, List.append_assoc]
          · exact ⟨a, by simpa [List.isEmpty_iff] using ha, rfl⟩
      next hs => cases h

theorem trailingSplit_before_lt {s b g : Str}
    (h : trailingSplit s = some (b, g)) : b.length < s.length := by
  obtain ⟨hs, a, ha, hg⟩ := trailingSplit_eq h
  rw [hs, List.length_append, hg]
  have : 0 < a.length := List.length_pos.mpr ha
  simp only [List.length_append, List.length_cons, List.length_reverse]
  omega

theorem normalizeM_eq_some {names : List Str} {x before grp : Str}
    (h : trailingSplit (removePfx x) = some (before, grp)) :
    normalizeM names x =
      if suffixMem names grp = true then removePfx x else pstrip before := by
  simp only [normalizeM, h]

theorem normalizeM_eq_none {names : List Str} {x : Str}
    (h : trailingSplit (removePfx x) = none) :
    normalizeM names x = removePfx x := by
  simp only [normalizeM, h]

theorem pstrip_normalizeM (names : List Str) (x : Str) :
    pstrip (normalizeM names x) = normalizeM names x := by
  unfold normalizeM removePfx
  cases h : trailingSplit (pstrip (subLeadingParen x)) with
  | none => simp only [h, pstrip_pstrip]
  | some p =>
    obtain ⟨before, grp⟩ := p
    simp only [h]
    by_cases hs : suffixMem names grp = true
    · simp [hs, pstrip_pstrip]
    · simp [hs, pstrip_pstrip]

theorem length_removePfx_le (s : Str) : (removePfx s).length ≤ s.length := by
  unfold removePfx
  rcases subLeadingParen_cases s with h | h
  · rw [h]
    exact length_pstrip_le s
  · have := length_pstrip_le (subLeadingParen s)
    omega

theorem length_normalizeM_le (names : List Str) (x : Str) :
    (normalizeM names x).length ≤ (removePfx x).length := by
  unfold normalizeM
  cases h : trailingSplit (removePfx x) with
  | none => simp [h]
  | some p =>
    obtain ⟨before, grp⟩ := p
    simp only [h]
    by_cases hs : suffixMem names grp = true
    · simp [hs]
    · simp only [hs, Bool.false_eq_true, if_false]
      have h1 := trailingSplit_before_lt h
      have h2 := length_pstrip_le before
      omega

theorem removePfx_eq_of_normalizeM_fix {names : List Str} {x : Str}
    (h : normalizeM names x = x) : removePfx x = x := by
  have h1 : (normalizeM names x).length ≤ (removePfx x).length :=
    length_normalizeM_le names x
  have h2 : (removePfx x).length ≤ x.length := length_removePfx_le x
  rw [h] at h1
  have hx : (removePfx x).length = x.length := by omega
  rcases subLeadingParen_cases x with hs | hs
  · unfold removePfx at hx ⊢
    rw [hs] at hx ⊢
    exact pstrip_eq_of_length hx
  · exfalso
    unfold removePfx at hx
    have := length_pstrip_le (subLeadingParen x)
    omega

theorem trailing_kept_of_normalizeM_fix {names : List Str} {x b g : Str}
    (h : normalizeM names x = x) (ht : trailingSplit x = some (b, g)) :
    suffixMem names g = true := by
  have hr : removePfx x = x := removePfx_eq_of_normalizeM_fix h
  by_contra hs
  have ht2 : trailingSplit (removePfx x) = some (b, g) := by rw [hr]; exact ht
  have he : normalizeM names x = pstrip b := by
    rw [normalizeM_eq_some ht2, if_neg hs]
  rw [he] at h
  have h1 := trailingSplit_before_lt ht
  have h2 := length_pstrip_le b
  have h3 : (pstrip b).length = x.length := by rw [h]
  omega

theorem normalizeM_fix (names : List Str) (y : Str)
    (h0 : pstrip y = y) (h1 : subLeadingParen y = y)
    (h2 : ∀ b g, trailingSplit y = some (b, g) → suffixMem names g = true) :
    normalizeM names y = y := by
  have hrp : removePfx y = y := by
    unfold removePfx
    rw [h1, h0]
  cases ht : trailingSplit y with
  | none =>
    rw [normalizeM_eq_none (by rw [hrp]; exact ht)]
    exact hrp
  | some p =>
    obtain ⟨b, g⟩ := p
    rw [normalizeM_eq_some (by rw [hrp]; exact ht), if_pos (h2 b g ht)]
    exact hrp

/-!
## Lemmas about `dedupFirst` and the Master Index
-/

theorem dedupFirstAux_congr {α : Type} [DecidableEq α]
    {seen seen' : List α} (h : ∀ a, a ∈ seen ↔ a ∈ seen') (l : List α) :
    dedupFirstAux seen l = dedupFirstAux seen' l := by
  induction l generalizing seen seen' with
  | nil => rfl
  | cons x xs ih =>
    by_cases hx : x ∈ seen
    · rw [dedupFirstAux, if_pos hx, dedupFirstAux, if_pos ((h x).mp hx)]
      exact ih h
    · rw [dedupFirstAux, if_neg hx, dedupFirstAux,
        if_neg (fun hc => hx ((h x).mpr hc))]
      congr 1
      exact ih (fun a => by simp [List.mem_cons, h a])

theorem dedupFirstAux_filter {α : Type} [DecidableEq α] (x : α) :
    ∀ (l : List α) (seen : List α),
      dedupFirstAux (x :: seen) l =
        dedupFirstAux seen (l.filter (fun y => decide (y ≠ x))) := by
  intro l
  induction l with
  | nil => intro seen; rfl
  | cons y ys ih =>
    intro seen
    by_cases hyx : y = x
    · subst hyx
      rw [dedupFirstAux, if_pos (List.mem_cons_self y seen),
        List.filter_cons_of_neg (by simp)]
      exact ih seen
    · rw [List.filter_cons_of_pos (by simp [hyx])]
      by_cases hy : y ∈ seen
      · rw [dedupFirstAux, if_pos (List.mem_cons_of_mem x hy),
          dedupFirstAux, if_pos hy]
        exact ih seen
      · rw [dedupFirstAux,
          if_neg (by simp [List.mem_cons, hyx, hy]),
          dedupFirstAux, if_neg hy]
        congr 1
        rw [@dedupFirstAux_congr _ _ (y :: x :: seen) (x :: y :: seen)
          (fun a => by simp [List.mem_cons]; tauto) ys]
        exact ih (y :: seen)

theorem dedupFirst_nil {α : Type} [DecidableEq α] :
    dedupFirst ([] : List α) = [] := rfl

theorem dedupFirst_cons {α : Type} [DecidableEq α] (x : α) (xs : List α) :
    dedupFirst (x :: xs) =
      x :: dedupFirst (xs.filter (fun y => decide (y ≠ x))) := by
  unfold dedupFirst
  rw [dedupFirstAux, if_neg (List.not_mem_nil x)]
  congr 1
  exact dedupFirstAux_filter x xs []

theorem mem_dedupFirst {α : Type} [DecidableEq α] (a : α) (l : List α) :
    a ∈ dedupFirst l ↔ a ∈ l := by
  suffices h : ∀ (n : Nat) (m : List α), m.length ≤ n →
      (a ∈ dedupFirst m ↔ a ∈ m) from h l.length l le_rfl
  intro n
  induction n with
  | zero =>
    intro m hm
    rw [List.eq_nil_of_length_eq_zero (Nat.le_zero.mp hm)]
    exact Iff.rfl
  | succ n ih =>
    intro m hm
    cases m with
    | nil => exact Iff.rfl
    | cons x xs =>
      simp only [List.length_cons] at hm
      rw [dedupFirst_cons, List.mem_cons, List.mem_cons,
        ih _ (le_trans (List.length_filter_le _ _) (by omega))]
      by_cases h : a = x
      · simp [h]
      · simp [h, List.mem_filter]

theorem nodup_dedupFirst {α : Type} [DecidableEq α] (l : List α) :
    (dedupFirst l).Nodup := by
  suffices h : ∀ (n : Nat) (m : List α), m.length ≤ n →
      (dedupFirst m).Nodup from h l.length l le_rfl
  intro n
  induction n with
  | zero =>
    intro m hm
    rw [List.eq_nil_of_length_eq_zero (Nat.le_zero.mp hm)]
    exact List.nodup_nil
  | succ n ih =>
    intro m hm
    cases m with
    | nil => exact List.nodup_nil
    | cons x xs =>
      simp only [List.length_cons] at hm
      rw [dedupFirst_cons, List.nodup_cons]
      refine ⟨?_, ih _ (le_trans (List.length_filter_le _ _) (by omega))⟩
      intro hmem
      rw [mem_dedupFirst] at hmem
      have := (List.mem_filter.mp hmem).2
      simp at this

theorem dedupFirst_of_nodup {α : Type} [DecidableEq α] {l : List α}
    (h : l.Nodup) : dedupFirst l = l := by
  induction l with
  | nil => rfl
  | cons x xs ih =>
    rw [List.nodup_cons] at h
    have hf : xs.filter (fun y => decide (y ≠ x)) = xs := by
      apply List.filter_eq_self.mpr
      intro a ha
      simp only [decide_eq_true_eq]
      intro he
      exact h.1 (he ▸ ha)
    rw [dedupFirst_cons, hf, ih h.2]

theorem filter_dedupFirst {α : Type} [DecidableEq α] (p : α → Bool)
    (l : List α) : (dedupFirst l).filter p = dedupFirst (l.filter p) := by
  suffices h : ∀ (n : Nat) (m : List α), m.length ≤ n →
      (dedupFirst m).filter p = dedupFirst (m.filter p) from
    h l.length l le_rfl
  intro n
  induction n with
  | zero =>
    intro m hm
    rw [List.eq_nil_of_length_eq_zero (Nat.le_zero.mp hm)]
    rfl
  | succ n ih =>
    intro m hm
    cases m with
    | nil => rfl
    | cons x xs =>
      simp only [List.length_cons] at hm
      have hlen : (xs.filter (fun y => decide (y ≠ x))).length ≤ n :=
        le_trans (List.length_filter_le _ _) (by omega)
      by_cases hp : p x = true
      · rw [dedupFirst_cons, List.filter_cons_of_pos hp, ih _ hlen,
          List.filter_cons_of_pos hp, dedupFirst_cons]
        congr 1
        rw [List.filter_comm]
      · rw [dedupFirst_cons, List.filter_cons_of_neg (by simp [hp]),
          ih _ hlen, List.filter_cons_of_neg (by simp [hp]),
          List.filter_comm]
        congr 1
        apply List.filter_eq_self.mpr
        intro a ha
        simp only [decide_eq_true_eq]
        intro he
        subst he
        exact hp (List.mem_filter.mp ha).2

theorem dedupFirst_map_aux {α β : Type} [DecidableEq α] [DecidableEq β]
    (f : α → β) :
    ∀ (n : Nat) (l : List α), l.length ≤ n →
      dedupFirst ((dedupFirst l).map f) = dedupFirst (l.map f) := by
  intro n
  induction n with
  | zero =>
    intro l hl
    have : l = [] := List.eq_nil_of_length_eq_zero (Nat.le_zero.mp hl)
    subst this
    rfl
  | succ n ih =>
    intro l hl
    cases l with
    | nil => rfl
    | cons x xs =>
      have hxs : xs.length ≤ n := by
        simp only [List.length_cons] at hl
        omega
      rw [dedupFirst_cons, List.map_cons, List.map_cons, dedupFirst_cons,
        dedupFirst_cons]
      congr 1
      rw [List.filter_map, filter_dedupFirst,
        ih _ (le_trans (List.length_filter_le _ _)
          (le_trans (List.length_filter_le _ _) hxs)),
        ← List.filter_map, List.filter_map, List.filter_map,
        List.filter_filter]
      congr 1
      congr 1
      apply List.filter_congr
      intro a _
      by_cases hfa : f a = f x
      · simp [Function.comp, hfa]
      · have hax : a ≠ x := fun he => hfa (by rw [he])
        simp [Function.comp, hfa, hax]

theorem dedupFirst_map {α β : Type} [DecidableEq α] [DecidableEq β]
    (f : α → β) (l : List α) :
    dedupFirst ((dedupFirst l).map f) = dedupFirst (l.map f) :=
  dedupFirst_map_aux f l.length l le_rfl

theorem mem_officialsOf {names : List Str} {b x : Str} :
    x ∈ officialsOf names b ↔ x ∈ names ∧ bareOf x = b := by
  simp [officialsOf, List.mem_filter]

theorem isBareKey_iff {names : List Str} {b : Str} :
    isBareKey names b = true ↔ ∃ n ∈ names, bareOf n = b := by
  simp [isBareKey, List.any_eq_true]

theorem mem_bareKeys {names : List Str} {b : Str} :
    b ∈ bareKeys names ↔ ∃ n ∈ names, bareOf n = b := by
  simp [bareKeys, mem_dedupFirst, List.mem_map]

theorem officialsOf_ne_nil {names : List Str} {b : Str}
    (h : b ∈ bareKeys names) : officialsOf names b ≠ [] := by
  obtain ⟨n, hn, hb⟩ := mem_bareKeys.mp h
  exact List.ne_nil_of_mem (mem_officialsOf.mpr ⟨hn, hb⟩)

theorem mem_containingMatches {names : List Str} {nz x : Str}
    (h : x ∈ containingMatches names nz) : x ∈ names := by
  simp only [containingMatches, List.mem_flatten, List.mem_map] at h
  obtain ⟨l, ⟨bare, _, rfl⟩, hx⟩ := h
  by_cases h1 : bare.length < 4 || nz.length < 4
  · rw [if_pos h1] at hx
    cases hx
  · rw [if_neg h1] at hx
    by_cases h2 : nz.isPrefixOf bare || bare.isPrefixOf nz
    · rw [if_pos h2] at hx
      exact (mem_officialsOf.mp hx).1
    · rw [if_neg h2] at hx
      cases hx

set_option maxRecDepth 8192

theorem any_dedupFirst {α : Type} [DecidableEq α] (l : List α) (p : α → Bool) :
    (dedupFirst l).any p = l.any p := by
  by_cases h : l.any p = true
  · rw [h]
    rw [List.any_eq_true] at h ⊢
    obtain ⟨a, ha, hp⟩ := h
    exact ⟨a, (mem_dedupFirst a l).mpr ha, hp⟩
  · have h2 : ¬(dedupFirst l).any p = true := by
      rw [List.any_eq_true] at h ⊢
      rintro ⟨a, ha, hp⟩
      exact h ⟨a, (mem_dedupFirst a l).mp ha, hp⟩
    rw [Bool.not_eq_true] at h h2
    rw [h, h2]

/-!
## The claims
-/

/-- C1 (counterexample): normalization is not idempotent as claimed.  For
the string `"x(a)(b)"` (over the empty master index, so no suffix is
protected) the first pass strips only the trailing `"(b)"`, leaving
`"x(a)"`, and a second pass strips `"(a)"` as well. -/
theorem c1_counterexample :
    normalizeM [] (normalizeM [] (str "x(a)(b)")) ≠
      normalizeM [] (str "x(a)(b)") := by decide

/-- C1 (amended): normalization is idempotent for every input `x` whose
normalized form is not subject to further stripping — that is, the
leading-parenthetical substitution does not fire on `normalize(x)` and
any trailing parenthetical of `normalize(x)` belongs to the master suffix
set.  (The counterexample shows both escapes are real: a second pass can
strip a newly exposed leading or trailing parenthetical.) -/
theorem c1_normalize_idem (names : List Str) (x : Str)
    (h1 : subLeadingParen (normalizeM names x) = normalizeM names x)
    (h2 : ∀ b g, trailingSplit (normalizeM names x) = some (b, g) →
      suffixMem names g = true) :
    normalizeM names (normalizeM names x) = normalizeM names x :=
  normalizeM_fix names (normalizeM names x) (pstrip_normalizeM names x) h1 h2

/-- C1 (witness): a master name with a protected suffix, and an input
whose normalized form keeps that suffix. -/
theorem c1_normalize_idem_witness :
    normalizeM [str "(P)AB(T)"] (normalizeM [str "(P)AB(T)"] (str "AB(T)")) =
      normalizeM [str "(P)AB(T)"] (str "AB(T)") := by
  apply c1_normalize_idem
  · decide
  · intro b g hg
    rw [show trailingSplit (normalizeM [str "(P)AB(T)"] (str "AB(T)")) =
        some (str "AB", str "(T)") by decide] at hg
    cases hg
    decide

/-- C2 (counterexample): building the matcher from a duplicated master
list does not behave identically to building it from the de-duplicated
list: `check("ABC")` resolves to the single canonical name in the
de-duplicated index, but the duplicated index sees two candidates for the
bare body `"ABC"` and reports an ambiguity instead. -/
theorem c2_counterexample :
    checkM [str "(P)ABC", str "(P)ABC"] (str "ABC") ≠
      checkM (dedupFirst [str "(P)ABC", str "(P)ABC"]) (str "ABC") := by decide

/-- C2 (amended): duplicates in the master list leave the master-set
membership, the bare-body key sequence, the suffix set, the bare-key
test, the minimum bare length, and the *de-duplicated* canonical-name
list of every bare body unchanged — but the stored canonical-name lists
keep the duplicates (`officialsOf` of the raw list versus its dedup), so
`check` can classify a uniquely-resolvable bare body as ambiguous (see
the counterexample); duplicates are idempotent only for the index's set
components. -/
theorem c2_index_dedup (names : List Str) :
    (∀ x : Str, x ∈ dedupFirst names ↔ x ∈ names) ∧
    bareKeys (dedupFirst names) = bareKeys names ∧
    (∀ g, suffixMem (dedupFirst names) g = suffixMem names g) ∧
    (∀ b, isBareKey (dedupFirst names) b = isBareKey names b) ∧
    minBareLen (dedupFirst names) = minBareLen names ∧
    (∀ b, officialsOf (dedupFirst names) b =
      dedupFirst (officialsOf names b)) := by
  have hkeys : bareKeys (dedupFirst names) = bareKeys names := by
    unfold bareKeys
    exact dedupFirst_map bareOf names
  refine ⟨fun x => mem_dedupFirst x names, hkeys, ?_, ?_, ?_, ?_⟩
  · intro g
    exact any_dedupFirst names _
  · intro b
    exact any_dedupFirst names _
  · unfold minBareLen
    rw [hkeys]
  · intro b
    unfold officialsOf
    exact filter_dedupFirst _ names

/-- C3 (counterexample): `check(N)` does not return Match for *every*
canonical name `N` of every master list: a canonical name that is caught
by the exclusion filter (here the header word `"공사명"`) is rejected
before the exact-membership rule fires. -/
theorem c3_counterexample :
    (str "공사명") ∈ [str "공사명"] ∧
      checkM [str "공사명"] (str "공사명") = none := by decide

/-- C3 (amended): for every canonical name `N` in the master list that is
whitespace-trimmed and passes the exclusion filter, `check(N)` returns
Match with suggestion `N` and an empty issue. -/
theorem c3_check_canonical (names : List Str) (N : Str)
    (hmem : N ∈ names) (hstrip : pstrip N = N)
    (hexc : isExcluded N = false) :
    checkM names N = some ⟨N, sMatch, some N, []⟩ := by
  have hne : N.isEmpty = false := by
    cases N with
    | nil => exact absurd hexc (by decide)
    | cons c cs => rfl
  simp only [checkM]
  rw [hstrip, hne, hexc]
  simp [hmem]

/-- C3 (witness): a default master name checks out as an exact match. -/
theorem c3_check_canonical_witness :
    checkM [str "(BTL)춘천기계공고"] (str "(BTL)춘천기계공고") =
      some ⟨str "(BTL)춘천기계공고", sMatch,
        some (str "(BTL)춘천기계공고"), []⟩ :=
  c3_check_canonical _ _ (by decide) (by decide) (by decide)

/-- C9: the overall file status is the stated function of the counts
(`NoNamesFound`/`명칭없음` when nothing was found, `Compliant`/`적합` when
nothing mismatched, `NeedsReview`/`검토필요` otherwise, with `total` the
number of reported entries), and a failed extraction short-circuits to the
`ExtractionError`/`"오류"` result with zero counts, no details and the
message captured, never propagating the exception. -/
theorem c9_review_file_status (names : List Str)
    (ext : Except Str (List (Str × Str))) :
    (∀ e, ext = Except.error e →
      reviewFile names ext = ⟨0, 0, 0, str "오류", [], some e⟩) ∧
    (∀ items, ext = Except.ok items →
      (reviewFile names ext).error = none ∧
      (reviewFile names ext).total = (reviewFile names ext).details.length ∧
      (reviewFile names ext).overall =
        (if (reviewFile names ext).total = 0 then str "명칭없음"
         else if (reviewFile names ext).mismatched = 0 then str "적합"
         else str "검토필요")) := by
  constructor
  · rintro e rfl
    rfl
  · rintro items rfl
    exact ⟨rfl, rfl, rfl⟩

/-- C9 (witness): a concrete failed extraction is converted into the
error result, and an empty extraction yields the no-names status. -/
theorem c9_review_file_status_witness :
    reviewFile [] (Except.error (str "X")) =
      ⟨0, 0, 0, str "오류", [], some (str "X")⟩ :=
  (c9_review_file_status [] (Except.error (str "X"))).1 (str "X") rfl

theorem isEmpty_false_of_not_excluded {t : Str} (h : isExcluded t = false) :
    t.isEmpty = false := by
  cases t with
  | nil => exact absurd h (by decide)
  | cons c cs => rfl

theorem intercalate_single {α : Type} (sep a : List α) :
    List.intercalate sep [a] = a := by
  simp [List.intercalate]

theorem isSuffixOf_append {α : Type} [DecidableEq α] (a b : List α) :
    b.isSuffixOf (a ++ b) = true :=
  List.isSuffixOf_iff_suffix.mpr ⟨a, rfl⟩

theorem checkM_eq_branch {names : List Str} {t : Str}
    (hstrip : pstrip t = t) (hexc : isExcluded t = false)
    (hmem : t ∉ names) :
    checkM names t =
      if isBareKey names (normalizeM names t) = true then
        step1M names t (normalizeM names t) (hasPfx t)
          (if hasPfx t then leadGroup t else [])
      else step2M names t (normalizeM names t) := by
  have hne := isEmpty_false_of_not_excluded hexc
  simp only [checkM]
  rw [hstrip, hne, hexc]
  simp [hmem]

theorem describeMismatch_noPfx {B C : Str}
    (hrp : removePfx B = B) (hbc : removePfx C = B) :
    describeMismatch B B [] C = str "접두어 누락 → 공식: " ++ C := by
  simp only [describeMismatch]
  rw [hrp]
  cases ht : trailingSplit B with
  | none =>
    simp only [ht, List.isEmpty_nil, if_true, List.isEmpty_cons,
      Bool.false_eq_true, if_false, intercalate_single]
    congr 1
  | some p =>
    obtain ⟨b0, g⟩ := p
    have hsfx : g.isSuffixOf (removePfx C) = true := by
      rw [hbc]
      obtain ⟨hB, -⟩ := trailingSplit_eq ht
      rw [hB]
      exact isSuffixOf_append b0 g
    simp only [ht, hsfx, List.isEmpty_nil, if_true, Bool.not_true,
      Bool.false_eq_true, if_false, List.isEmpty_cons, intercalate_single]
    congr 1

/-- C4 (counterexample): the claim fails without the exclusion filter:
for the master list `["(P)AB"]` every stated hypothesis holds for the
bare body `"AB"` (it maps to exactly one canonical name carrying a
prefix, is itself not canonical, carries no prefix, and normalizes to
itself), yet `check("AB")` returns nothing because two-character inputs
are filtered out before classification. -/
theorem c4_counterexample :
    officialsOf [str "(P)AB"] (str "AB") = [str "(P)AB"] ∧
    hasPfx (str "(P)AB") = true ∧
    hasPfx (str "AB") = false ∧
    (str "AB") ∉ [str "(P)AB"] ∧
    normalizeM [str "(P)AB"] (str "AB") = str "AB" ∧
    checkM [str "(P)AB"] (str "AB") = none := by decide

/-- C4 (amended): if a bare body `B` maps to exactly one canonical name
`C` carrying a prefix, the input is `B` itself (no prefix, not itself a
canonical name, fixed by normalization), and `B` additionally passes the
exclusion filter, then `check(B)` is a Mismatch with suggestion `C` and
the missing-prefix issue naming `C` as the official name. -/
theorem c4_missing_pfx (names : List Str) (B C : Str)
    (hoff : officialsOf names B = [C])
    (hCpfx : hasPfx C = true)
    (hBpfx : hasPfx B = false)
    (hmem : B ∉ names)
    (hnorm : normalizeM names B = B)
    (hexc : isExcluded B = false) :
    checkM names B =
      some ⟨B, sMis, some C, str "접두어 누락 → 공식: " ++ C⟩ := by
  have hCin : C ∈ officialsOf names B := by
    rw [hoff]
    exact List.mem_cons_self C []
  obtain ⟨hCmem, hCbare⟩ := mem_officialsOf.mp hCin
  have hstrip : pstrip B = B := by
    rw [← hCbare]
    exact pstrip_pstrip _
  have hkey : isBareKey names B = true := isBareKey_iff.mpr ⟨C, hCmem, hCbare⟩
  have hrp : removePfx B = B := removePfx_eq_of_normalizeM_fix hnorm
  rw [checkM_eq_branch hstrip hexc hmem, hnorm, hkey, if_pos rfl, hBpfx]
  simp only [Bool.false_eq_true, if_false, step1M, hoff]
  rw [describeMismatch_noPfx hrp hCbare]

/-- C4 (witness): a concrete prefixed canonical name and its bare body. -/
theorem c4_missing_pfx_witness :
    checkM [str "(Q)WXYZ"] (str "WXYZ") =
      some ⟨str "WXYZ", sMis, some (str "(Q)WXYZ"),
        str "접두어 누락 → 공식: " ++ str "(Q)WXYZ"⟩ :=
  c4_missing_pfx [str "(Q)WXYZ"] (str "WXYZ") (str "(Q)WXYZ") (by decide)
    (by decide) (by decide) (by decide) (by decide) (by decide)

theorem flatten_eq_nil_of_all {α β : Type} (f : α → List β) (K : List α)
    (h : ∀ y ∈ K, f y = []) : (K.map f).flatten = [] := by
  induction K with
  | nil => rfl
  | cons k ks ih =>
    rw [List.map_cons, List.flatten_cons, h k (List.mem_cons_self k ks),
      List.nil_append]
    exact ih (fun y hy => h y (List.mem_cons_of_mem k hy))

theorem flatten_map_single {α β : Type} (f : α → List β) (K : List α)
    (x : α) (hN : K.Nodup) (hx : x ∈ K)
    (hother : ∀ y ∈ K, y ≠ x → f y = []) : (K.map f).flatten = f x := by
  induction K with
  | nil => cases hx
  | cons k ks ih =>
    rw [List.nodup_cons] at hN
    rw [List.map_cons, List.flatten_cons]
    rcases List.mem_cons.mp hx with heq | hx'
    · subst heq
      rw [flatten_eq_nil_of_all f ks
        (fun y hy => hother y (List.mem_cons_of_mem _ hy)
          (fun he => hN.1 (he ▸ hy))), List.append_nil]
    · have hk : f k = [] := hother k (List.mem_cons_self k ks)
        (fun he => hN.1 (by rw [he]; exact hx'))
      rw [hk, List.nil_append]
      exact ih hN.2 hx'
        (fun y hy hne => hother y (List.mem_cons_of_mem k hy) hne)

theorem containingMatches_eq_single {names : List Str} {B1 B2 C2 : Str}
    (hlen1 : 4 ≤ B1.length) (hpp : B1 <+: B2)
    (hlt : B1.length < B2.length)
    (hB2 : B2 ∈ bareKeys names)
    (hoff : officialsOf names B2 = [C2])
    (huniq : ∀ b ∈ bareKeys names, 4 ≤ b.length →
      (B1.isPrefixOf b = true ∨ b.isPrefixOf B1 = true) → b = B2) :
    containingMatches names B1 = [C2] := by
  unfold containingMatches
  rw [flatten_map_single _ (bareKeys names) B2 (nodup_dedupFirst _) hB2 ?_]
  case _ =>
    have hc1 : ¬(decide (B2.length < 4) || decide (B1.length < 4)) = true := by
      simp only [Bool.or_eq_true, decide_eq_true_eq]
      omega
    rw [if_neg hc1,
      if_pos (by
        rw [Bool.or_eq_true]
        exact Or.inl (List.isPrefixOf_iff_prefix.mpr hpp)), hoff]
  case _ =>
    intro y hy hne
    by_cases h4 : (decide (y.length < 4) || decide (B1.length < 4)) = true
    · rw [if_pos h4]
    · rw [if_neg h4]
      by_cases hpf : (B1.isPrefixOf y || y.isPrefixOf B1) = true
      · exact absurd
          (huniq y hy
            (by
              simp only [Bool.or_eq_true, decide_eq_true_eq] at h4
              omega)
            (Bool.or_eq_true _ _ |>.mp hpf)) hne
      · rw [if_neg hpf]

/-- C5 (counterexample): the containment claim fails when the normalized
input is shorter than 4 characters: `"ABC"` is a proper prefix of the
bare body `"ABCDE"` with a length gap of 2 and no canonical name of its
own, yet `check("ABC")` reports a similarity-based typo issue (75%), not
the claimed incomplete-name issue, because `_find_containing_matches`
requires both sides to have length at least 4. -/
theorem c5_counterexample :
    (str "ABC").isPrefixOf (str "ABCDE") = true ∧
    (str "ABCDE").length - (str "ABC").length = 2 ∧
    isBareKey [str "(P)ABCDE"] (str "ABC") = false ∧
    isBareKey [str "(P)ABCDE"] (str "ABCDE") = true ∧
    normalizeM [str "(P)ABCDE"] (str "ABC") = str "ABC" ∧
    checkM [str "(P)ABCDE"] (str "ABC") =
      some ⟨str "ABC", sMis, some (str "(P)ABCDE"),
        str "오탈자 추정 (유사도 75%) → 공식: (P)ABCDE"⟩ := by decide

/-- C5 (amended): if the input (trimmed, passing the exclusion filter,
not canonical) normalizes to `B1` with `4 ≤ len(B1)`, no canonical name
exists for `B1` itself, `B1` is a proper prefix of the bare body `B2`
with `len(B2) - len(B1) ≥ 2`, `B2` is the only bare body in a
containment relation with `B1`, and `B2` maps to exactly one canonical
name `C2`, then `check` returns Mismatch suggesting `C2` with the
incomplete-name issue. -/
theorem c5_containment (names : List Str) (t B1 B2 C2 : Str)
    (hstrip : pstrip t = t) (hexc : isExcluded t = false)
    (hmem : t ∉ names) (hnorm : normalizeM names t = B1)
    (hkey1 : isBareKey names B1 = false)
    (hpp : B1 <+: B2) (hlen2 : B1.length + 2 ≤ B2.length)
    (hlen1 : 4 ≤ B1.length)
    (hB2 : B2 ∈ bareKeys names)
    (hoff : officialsOf names B2 = [C2])
    (huniq : ∀ b ∈ bareKeys names, 4 ≤ b.length →
      (B1.isPrefixOf b = true ∨ b.isPrefixOf B1 = true) → b = B2) :
    checkM names t =
      some ⟨t, sMis, some C2, str "명칭 불완전 → 공식: " ++ C2⟩ := by
  have hlt : B1.length < B2.length := by omega
  have hC2bare : bareOf C2 = B2 :=
    (mem_officialsOf.mp (by rw [hoff]; exact List.mem_cons_self _ _)).2
  have hC2r : removePfx C2 = B2 := hC2bare
  have hnotpfx : B2.isPrefixOf B1 = false := by
    by_cases hc : B2.isPrefixOf B1 = true
    · exfalso
      have := (List.isPrefixOf_iff_prefix.mp hc).length_le
      omega
    · exact eq_false_of_ne_true hc
  rw [checkM_eq_branch hstrip hexc hmem, hnorm]
  simp only [hkey1, Bool.false_eq_true, if_false, step2M,
    containingMatches_eq_single hlen1 hpp hlt hB2 hoff huniq,
    hC2r, hnotpfx, Bool.false_and, if_false]

/-- C5 (witness): `"ABCD"` against the single master name
`"(P)ABCDEF"`. -/
theorem c5_containment_witness :
    checkM [str "(P)ABCDEF"] (str "ABCD") =
      some ⟨str "ABCD", sMis, some (str "(P)ABCDEF"),
        str "명칭 불완전 → 공식: " ++ str "(P)ABCDEF"⟩ :=
  c5_containment [str "(P)ABCDEF"] (str "ABCD") (str "ABCD")
    (str "ABCDEF") (str "(P)ABCDEF") (by decide) (by decide) (by decide)
    (by decide) (by decide) (by decide) (by decide) (by decide)
    (by decide) (by decide) (by decide)

/-- C6: on an input passing the exclusion filters for which no earlier
classification rule fires (not canonical, normalized form not a bare
body, no containment match), a best bare-body similarity of exactly 0.70
(as the exact fraction `2M/(la+lb) = 7/10`) yields Mismatch with the
typo-suspected issue and the best bare body's first-listed canonical name
as suggestion, while a best similarity strictly below 0.70 yields no
result. -/
theorem c6_similarity_threshold (names : List Str) (t : Str)
    (hstrip : pstrip t = t) (hexc : isExcluded t = false)
    (hmem : t ∉ names)
    (hkey : isBareKey names (normalizeM names t) = false)
    (hcont : containingMatches names (normalizeM names t) = []) :
    (10 * (bestSim names (normalizeM names t)).2.num =
        7 * (bestSim names (normalizeM names t)).2.den →
      checkM names t =
        some ⟨t, sMis, (bestSim names (normalizeM names t)).1,
          str "오탈자 추정 (유사도 " ++
            pctStr (bestSim names (normalizeM names t)).2 ++
            str "%) → 공식: " ++
            optRender (bestSim names (normalizeM names t)).1⟩) ∧
    (10 * (bestSim names (normalizeM names t)).2.num <
        7 * (bestSim names (normalizeM names t)).2.den →
      checkM names t = none) := by
  have hred : checkM names t = step3M names t (normalizeM names t) := by
    rw [checkM_eq_branch hstrip hexc hmem]
    simp only [hkey, Bool.false_eq_true, if_false, step2M, hcont]
  constructor
  · intro heq
    have hge : scoreGe07 (bestSim names (normalizeM names t)).2 = true := by
      unfold scoreGe07
      exact decide_eq_true (by omega)
    rw [hred]
    simp only [step3M, hge, if_true]
  · intro hlt
    have hge : scoreGe07 (bestSim names (normalizeM names t)).2 = false := by
      unfold scoreGe07
      exact decide_eq_false (by omega)
    rw [hred]
    simp only [step3M, hge, Bool.false_eq_true, if_false]

/-- C6 (witness): `"ABCDEFGXYZ"` against the bare body `"ABCDEFGUVW"`
has ratio exactly `14/20 = 0.70` and is flagged as a suspected typo;
`"ABCQQQQQQQ"` has ratio `6/20 = 0.30` and yields no result. -/
theorem c6_similarity_threshold_witness :
    checkM [str "(P)ABCDEFGUVW"] (str "ABCDEFGXYZ") =
      some ⟨str "ABCDEFGXYZ", sMis, some (str "(P)ABCDEFGUVW"),
        str "오탈자 추정 (유사도 70%) → 공식: (P)ABCDEFGUVW"⟩ ∧
    checkM [str "(P)ABCDEFGUVW"] (str "ABCQQQQQQQ") = none := by
  constructor
  · have h := (c6_similarity_threshold [str "(P)ABCDEFGUVW"]
      (str "ABCDEFGXYZ") (by decide) (by decide) (by decide) (by decide)
      (by decide)).1 (by decide)
    rw [h]
    decide
  · exact (c6_similarity_threshold [str "(P)ABCDEFGUVW"]
      (str "ABCQQQQQQQ") (by decide) (by decide) (by decide) (by decide)
      (by decide)).2 (by decide)

theorem checkM_eq_none_of_guard {names : List Str} {t : Str}
    (h : ((pstrip t).isEmpty || isExcluded (pstrip t)) = true) :
    checkM names t = none := by
  simp only [checkM]
  rw [h]
  rfl

theorem checkM_eq_match_of_mem {names : List Str} {t : Str}
    (hg : ((pstrip t).isEmpty || isExcluded (pstrip t)) = false)
    (hmem : pstrip t ∈ names) :
    checkM names t = some ⟨pstrip t, sMatch, some (pstrip t), []⟩ := by
  simp only [checkM]
  rw [hg]
  simp [hmem]

theorem checkM_eq_branch2 {names : List Str} {t : Str}
    (hg : ((pstrip t).isEmpty || isExcluded (pstrip t)) = false)
    (hmem : pstrip t ∉ names) :
    checkM names t =
      if isBareKey names (normalizeM names (pstrip t)) = true then
        step1M names (pstrip t) (normalizeM names (pstrip t))
          (hasPfx (pstrip t))
          (if hasPfx (pstrip t) then leadGroup (pstrip t) else [])
      else step2M names (pstrip t) (normalizeM names (pstrip t)) := by
  simp only [checkM]
  rw [hg]
  simp [hmem]

theorem step3M_some {names : List Str} {text nz : Str} {r : CheckResult}
    (h : step3M names text nz = some r) :
    r.status = sMis ∧ r.suggestion = (bestSim names nz).1 ∧
      scoreGe07 (bestSim names nz).2 = true := by
  simp only [step3M] at h
  by_cases hge : scoreGe07 (bestSim names nz).2 = true
  · rw [if_pos hge] at h
    cases h
    exact ⟨rfl, rfl, hge⟩
  · rw [if_neg hge] at h
    cases h

theorem step2M_some_status {names : List Str} {text nz : Str}
    {r : CheckResult} (h : step2M names text nz = some r) :
    r.status = sMis := by
  simp only [step2M] at h
  split at h
  · exact (step3M_some h).1
  · split at h
    · exact (step3M_some h).1
    · cases h
      rfl
  · cases h
    rfl

theorem step1M_some_status {names : List Str} {text nz inPfx : Str}
    {hasP : Bool} {r : CheckResult}
    (h : step1M names text nz hasP inPfx = some r) :
    r.status = sMis ∨ (r.status = sMatch ∧ text ∈ names) := by
  simp only [step1M] at h
  split at h
  · cases h
  · cases h
    exact Or.inl rfl
  · split at h
    · next off hfind =>
      cases h
      right
      refine ⟨rfl, ?_⟩
      have hp := List.find?_some hfind
      have hm := List.mem_of_find?_eq_some hfind
      rw [show text = off from eq_of_beq hp]
      exact (mem_officialsOf.mp hm).1
    · split at h
      · split at h
        · cases h
          exact Or.inl rfl
        · cases h
          exact Or.inl rfl
      · cases h
        exact Or.inl rfl

/-- C10 (counterexample): `check` returning Match is *not* equivalent to
the stripped input being a canonical name: for the master list `["AB"]`
the input `"AB"` is canonical but is dropped by the exclusion filter, so
`check` returns nothing at all. -/
theorem c10_counterexample :
    pstrip (str "AB") ∈ [str "AB"] ∧
      checkM [str "AB"] (str "AB") = none := by decide

/-- C10 (amended): `check` returns Match iff its stripped input is a
member of the canonical-name set *and* passes the exclusion filter; and
the defensive re-check inside the multiple-canonical branch is
unreachable: whenever the exact-membership rule did not fire, the scan of
the candidate canonical names for a full-string equality finds nothing. -/
theorem c10_match_iff (names : List Str) (t : Str) :
    ((∃ r, checkM names t = some r ∧ r.status = sMatch) ↔
      pstrip t ∈ names ∧ isExcluded (pstrip t) = false) ∧
    (pstrip t ∉ names →
      (officialsOf names (normalizeM names (pstrip t))).find?
        (fun off => pstrip t == off) = none) := by
  constructor
  · constructor
    · rintro ⟨r, hr, hst⟩
      by_cases hg : ((pstrip t).isEmpty || isExcluded (pstrip t)) = true
      · rw [checkM_eq_none_of_guard hg] at hr
        cases hr
      · rw [Bool.not_eq_true] at hg
        have hexc : isExcluded (pstrip t) = false :=
          (Bool.or_eq_false_iff.mp hg).2
        by_cases hmem : pstrip t ∈ names
        · exact ⟨hmem, hexc⟩
        · rw [checkM_eq_branch2 hg hmem] at hr
          split at hr
          · rcases step1M_some_status hr with h1 | ⟨_, h2⟩
            · rw [hst] at h1
              exact absurd h1 (by decide)
            · exact absurd h2 hmem
          · have h1 := step2M_some_status hr
            rw [hst] at h1
            exact absurd h1 (by decide)
    · rintro ⟨hmem, hexc⟩
      have hne : (pstrip t).isEmpty = false :=
        isEmpty_false_of_not_excluded hexc
      have hg : ((pstrip t).isEmpty || isExcluded (pstrip t)) = false := by
        rw [hne, hexc]
        rfl
      exact ⟨_, checkM_eq_match_of_mem hg hmem, rfl⟩
  · intro hmem
    rw [List.find?_eq_none]
    intro x hx
    simp only [beq_iff_eq]
    intro he
    exact hmem (he ▸ (mem_officialsOf.mp hx).1)

/-- C10 (witness): the defensive scan finds nothing even when the
normalized input maps to two canonical names, and the backward direction
produces a Match for a canonical member. -/
theorem c10_match_iff_witness :
    (officialsOf [str "(P)QRS", str "(Q)QRS"]
        (normalizeM [str "(P)QRS", str "(Q)QRS"] (pstrip (str "QRS")))).find?
      (fun off => pstrip (str "QRS") == off) = none ∧
    ∃ r, checkM [str "(P)QRS", str "(Q)QRS"] (str "(P)QRS") = some r ∧
      r.status = sMatch := by
  constructor
  · exact (c10_match_iff [str "(P)QRS", str "(Q)QRS"] (str "QRS")).2
      (by decide)
  · exact (c10_match_iff [str "(P)QRS", str "(Q)QRS"] (str "(P)QRS")).1.mpr
      (by decide)

theorem intercalate_cons_cons {α : Type} (sep a b : List α)
    (rest : List (List α)) :
    List.intercalate sep (a :: b :: rest) =
      a ++ sep ++ List.intercalate sep (b :: rest) := by
  simp [List.intercalate, List.append_assoc]

theorem joinSlash_cons_cons_ne_nil {a : Str} (b : Str) (rest : List Str)
    (ha : a ≠ []) : joinSlash (a :: b :: rest) ≠ [] := by
  unfold joinSlash
  rw [intercalate_cons_cons]
  intro h
  simp only [List.append_eq_nil] at h
  exact ha h.1.1

theorem bestSim_aux (names : List Str) (text : Str) :
    ∀ (K : List Str) (st : Option Str × Score),
      (∀ b ∈ K, b ∈ bareKeys names) →
      (st = (none, ⟨0, 1⟩) ∨ ∃ bare ∈ bareKeys names,
        st.1 = some ((officialsOf names bare).headD [])) →
      (K.foldl (fun best bare =>
          let score := seqRatio text bare
          if scoreLt best.2 score then
            (some ((officialsOf names bare).headD []), score)
          else best) st = (none, ⟨0, 1⟩) ∨
        ∃ bare ∈ bareKeys names,
          (K.foldl (fun best bare =>
            let score := seqRatio text bare
            if scoreLt best.2 score then
              (some ((officialsOf names bare).headD []), score)
            else best) st).1 = some ((officialsOf names bare).headD [])) := by
  intro K
  induction K with
  | nil =>
    intro st _ hst
    exact hst
  | cons k ks ih =>
    intro st hK hst
    rw [List.foldl_cons]
    apply ih
    · intro b hb
      exact hK b (List.mem_cons_of_mem _ hb)
    · by_cases hc : scoreLt st.2 (seqRatio text k) = true
      · right
        exact ⟨k, hK k (List.mem_cons_self _ _), by simp [hc]⟩
      · rcases hst with rfl | ⟨bare, hb, h1⟩
        · left
          simp [hc]
        · right
          exact ⟨bare, hb, by simp [hc, h1]⟩

theorem bestSim_cases (names : List Str) (text : Str) :
    bestSim names text = (none, ⟨0, 1⟩) ∨
      ∃ bare ∈ bareKeys names,
        (bestSim names text).1 = some ((officialsOf names bare).headD []) :=
  bestSim_aux names text (bareKeys names) (none, ⟨0, 1⟩)
    (fun _ hb => hb) (Or.inl rfl)

theorem headD_officialsOf_mem {names : List Str} {bare : Str}
    (h : bare ∈ bareKeys names) :
    (officialsOf names bare).headD [] ∈ names := by
  have hne := officialsOf_ne_nil h
  cases hof : officialsOf names bare with
  | nil => exact absurd hof hne
  | cons o os =>
    have hmem : o ∈ officialsOf names bare := by
      rw [hof]
      exact List.mem_cons_self _ _
    exact (mem_officialsOf.mp hmem).1

theorem step3M_suggestion {names : List Str} {text nz : Str}
    {r : CheckResult} (hnn : ∀ n ∈ names, n ≠ [])
    (h : step3M names text nz = some r) :
    ∃ s, r.suggestion = some s ∧ s ≠ [] := by
  obtain ⟨-, hsug, hge⟩ := step3M_some h
  rcases bestSim_cases names nz with hc | ⟨bare, hb, h1⟩
  · rw [hc] at hge
    exact absurd hge (by decide)
  · refine ⟨(officialsOf names bare).headD [], by rw [hsug, h1], ?_⟩
    exact hnn _ (headD_officialsOf_mem hb)

theorem step2M_suggestion {names : List Str} {text nz : Str}
    {r : CheckResult} (hnn : ∀ n ∈ names, n ≠ [])
    (h : step2M names text nz = some r) :
    ∃ s, r.suggestion = some s ∧ s ≠ [] := by
  simp only [step2M] at h
  split at h
  · exact step3M_suggestion hnn h
  · next c heq =>
    split at h
    · exact step3M_suggestion hnn h
    · cases h
      refine ⟨c, rfl, hnn c ?_⟩
      exact mem_containingMatches
        (by rw [heq]; exact List.mem_cons_self _ _)
  · cases h
    rename_i ls hne1 hne2
    cases hcm : containingMatches names nz with
    | nil => exact absurd hcm hne1
    | cons c1 cs =>
      cases cs with
      | nil => exact absurd hcm (hne2 c1)
      | cons c2 rest =>
        refine ⟨joinSlash (c1 :: c2 :: rest), rfl, ?_⟩
        apply joinSlash_cons_cons_ne_nil
        exact hnn c1 (mem_containingMatches
          (by rw [hcm]; exact List.mem_cons_self _ _))

theorem step1M_suggestion {names : List Str} {text nz inPfx : Str}
    {hasP : Bool} {r : CheckResult} (hnn : ∀ n ∈ names, n ≠ [])
    (h : step1M names text nz hasP inPfx = some r)
    (hst : r.status = sMis) :
    ∃ s, r.suggestion = some s ∧ s ≠ [] := by
  simp only [step1M] at h
  split at h
  · cases h
  · next off heq =>
    cases h
    refine ⟨off, rfl, hnn off ?_⟩
    exact (mem_officialsOf.mp
      (by rw [heq]; exact List.mem_cons_self _ _)).1
  · rename_i ls hne1 hne2
    split at h
    · cases h
      exact ((by decide : ¬ sMatch = sMis) hst).elim
    · split at h
      · split at h
        · next mo hfind =>
          cases h
          refine ⟨mo, rfl, hnn mo ?_⟩
          exact (mem_officialsOf.mp (List.mem_of_find?_eq_some hfind)).1
        · cases h
          cases hcm : officialsOf names nz with
          | nil => exact absurd hcm hne1
          | cons o1 os =>
            cases os with
            | nil => exact absurd hcm (hne2 o1)
            | cons o2 rest =>
              refine ⟨joinSlash (o1 :: o2 :: rest), rfl, ?_⟩
              apply joinSlash_cons_cons_ne_nil
              exact hnn o1 (mem_officialsOf.mp
                (by rw [hcm]; exact List.mem_cons_self _ _)).1
      · cases h
        cases hcm : officialsOf names nz with
        | nil => exact absurd hcm hne1
        | cons o1 os =>
          cases os with
          | nil => exact absurd hcm (hne2 o1)
          | cons o2 rest =>
            refine ⟨joinSlash (o1 :: o2 :: rest), rfl, ?_⟩
            apply joinSlash_cons_cons_ne_nil
            exact hnn o1 (mem_officialsOf.mp
              (by rw [hcm]; exact List.mem_cons_self _ _)).1

/-- C7: over any master index built from nonempty names, every Mismatch
result of `check` carries a suggestion that is a nonempty string (the
single resolved canonical name, a nonempty slash-join of several
candidates, or the best similarity representative). -/
theorem c7_mismatch_suggestion (names : List Str) (t : Str)
    (r : CheckResult) (hnn : ∀ n ∈ names, n ≠ [])
    (hc : checkM names t = some r) (hst : r.status = sMis) :
    ∃ s, r.suggestion = some s ∧ s ≠ [] := by
  by_cases hg : ((pstrip t).isEmpty || isExcluded (pstrip t)) = true
  · rw [checkM_eq_none_of_guard hg] at hc
    cases hc
  · rw [Bool.not_eq_true] at hg
    by_cases hmem : pstrip t ∈ names
    · rw [checkM_eq_match_of_mem hg hmem] at hc
      cases hc
      exact ((by decide : ¬ sMatch = sMis) hst).elim
    · rw [checkM_eq_branch2 hg hmem] at hc
      split at hc
      · exact step1M_suggestion hnn hc hst
      · exact step2M_suggestion hnn hc

/-- C7 (witness): a concrete mismatch carries the nonempty canonical
suggestion. -/
theorem c7_mismatch_suggestion_witness :
    ∃ s, (CheckResult.mk (str "KLMN") sMis (some (str "(V)KLMN"))
      (str "접두어 누락 → 공식: (V)KLMN")).suggestion = some s ∧ s ≠ [] :=
  c7_mismatch_suggestion [str "(V)KLMN"] (str "KLMN") _ (by decide)
    (by decide) (by decide)

theorem find?_eq_head?_filter {α : Type} (p : α → Bool) (l : List α) :
    l.find? p = (l.filter p).head? := by
  induction l with
  | nil => rfl
  | cons x xs ih =>
    by_cases h : p x = true
    · rw [List.find?_cons_of_pos _ h, List.filter_cons_of_pos h]
      rfl
    · rw [List.find?_cons_of_neg _ h, List.filter_cons_of_neg h, ih]

theorem consume_filter_other {names : List Str} {st : List (Str × Entry)}
    {c loc cand : Str} (hne : (c == cand) = false) :
    (consume names st c loc).filter (fun q => q.1 == cand) =
      st.filter (fun q => q.1 == cand) := by
  simp only [consume]
  cases hf : st.find? (fun p => p.1 == c) with
  | none =>
    simp only [hf]
    cases hchk : checkM names c with
    | none => rfl
    | some r =>
      rw [List.filter_append]
      have : ((c, (⟨r, loc, [loc]⟩ : Entry)) :: []).filter
          (fun q => q.1 == cand) = [] := by
        simp [hne]
      rw [this, List.append_nil]
  | some p =>
    simp only [hf]
    by_cases hs : (p.2.res.status == sMis) = true
    · simp only [hs, if_true]
      by_cases hl : loc ∈ p.2.locs
      · rw [if_pos hl]
      · rw [if_neg hl]
        rw [List.filter_map]
        have h1 : st.filter ((fun q : Str × Entry => q.1 == cand) ∘
            (fun q : Str × Entry => if q.1 == c then
              (q.1, ⟨q.2.res, List.intercalate (str ", ") (q.2.locs ++ [loc]),
                q.2.locs ++ [loc]⟩) else q)) =
            st.filter (fun q => q.1 == cand) := by
          apply List.filter_congr
          intro a _
          by_cases hq : (a.1 == c) = true <;> simp [Function.comp, hq]
        rw [h1]
        have h2 : ∀ a ∈ st.filter (fun q : Str × Entry => q.1 == cand),
            (if a.1 == c then
              (a.1, (⟨a.2.res, List.intercalate (str ", ") (a.2.locs ++ [loc]),
                a.2.locs ++ [loc]⟩ : Entry)) else a) = a := by
          intro a ha
          have hak : (a.1 == cand) = true := (List.mem_filter.mp ha).2
          have hac : (a.1 == c) = false := by
            have h3 : a.1 = cand := eq_of_beq hak
            have h4 : c ≠ cand := by
              intro he
              rw [he] at hne
              simp at hne
            rw [h3]
            simp [Ne.symm h4]
          rw [hac]
          simp
        rw [List.map_congr_left h2]
        simp
    · simp only [hs, Bool.false_eq_true, if_false]

theorem consume_filter_mis {names : List Str} {st : List (Str × Entry)}
    {cand loc : Str} {e : Entry}
    (hfil : st.filter (fun q => q.1 == cand) = [(cand, e)])
    (hst : (e.res.status == sMis) = true) :
    (consume names st cand loc).filter (fun q => q.1 == cand) =
      if loc ∈ e.locs then [(cand, e)]
      else [(cand, ⟨e.res,
        List.intercalate (str ", ") (e.locs ++ [loc]), e.locs ++ [loc]⟩)] := by
  have hfind : st.find? (fun p => p.1 == cand) = some (cand, e) := by
    rw [find?_eq_head?_filter, hfil]
    rfl
  simp only [consume, hfind]
  simp only [hst, if_true]
  by_cases hl : loc ∈ e.locs
  · rw [if_pos hl, if_pos hl, hfil]
  · rw [if_neg hl, if_neg hl]
    rw [List.filter_map]
    have h1 : st.filter ((fun q : Str × Entry => q.1 == cand) ∘
        (fun q : Str × Entry => if q.1 == cand then
          (q.1, ⟨q.2.res, List.intercalate (str ", ") (q.2.locs ++ [loc]),
            q.2.locs ++ [loc]⟩) else q)) =
        st.filter (fun q => q.1 == cand) := by
      apply List.filter_congr
      intro a _
      by_cases hq : (a.1 == cand) = true <;> simp [Function.comp, hq]
    rw [h1, hfil]
    simp

theorem consume_filter_matched {names : List Str} {st : List (Str × Entry)}
    {cand loc : Str} {e : Entry}
    (hfil : st.filter (fun q => q.1 == cand) = [(cand, e)])
    (hst : (e.res.status == sMis) = false) :
    (consume names st cand loc).filter (fun q => q.1 == cand) =
      [(cand, e)] := by
  have hfind : st.find? (fun p => p.1 == cand) = some (cand, e) := by
    rw [find?_eq_head?_filter, hfil]
    rfl
  simp only [consume, hfind]
  simp only [hst, Bool.false_eq_true, if_false]
  exact hfil

theorem consume_filter_new {names : List Str} {st : List (Str × Entry)}
    {cand loc : Str}
    (hfil : st.filter (fun q => q.1 == cand) = []) :
    (consume names st cand loc).filter (fun q => q.1 == cand) =
      match checkM names cand with
      | none => []
      | some r => [(cand, ⟨r, loc, [loc]⟩)] := by
  have hfind : st.find? (fun p => p.1 == cand) = none := by
    rw [find?_eq_head?_filter, hfil]
    rfl
  simp only [consume, hfind]
  cases hchk : checkM names cand with
  | none => exact hfil
  | some r =>
    rw [List.filter_append, hfil]
    simp

theorem runConsume_mis_aux {names : List Str} {cand : Str} {r : CheckResult}
    (hst : r.status = sMis) :
    ∀ (evs : List (Str × Str)) (st : List (Str × Entry)) (locs : List Str),
      st.filter (fun q => q.1 == cand) =
        [(cand, ⟨r, List.intercalate (str ", ") locs, locs⟩)] →
      (runConsume names st evs).filter (fun q => q.1 == cand) =
        [(cand, ⟨r,
          List.intercalate (str ", ")
            (List.foldl (fun ls l => if l ∈ ls then ls else ls ++ [l]) locs
              ((evs.filter (fun ev => ev.1 == cand)).map Prod.snd)),
          List.foldl (fun ls l => if l ∈ ls then ls else ls ++ [l]) locs
            ((evs.filter (fun ev => ev.1 == cand)).map Prod.snd)⟩)] := by
  intro evs
  induction evs with
  | nil =>
    intro st locs hfil
    simpa [runConsume] using hfil
  | cons ev evs ih =>
    intro st locs hfil
    obtain ⟨c, l⟩ := ev
    by_cases hc : (c == cand) = true
    · have hceq : c = cand := eq_of_beq hc
      subst hceq
      have hb : (((⟨r, List.intercalate (str ", ") locs, locs⟩ :
          Entry)).res.status == sMis) = true := by
        simp [hst]
      have hcf := @consume_filter_mis names st c l _ hfil hb
      by_cases hl : l ∈ locs
      · rw [if_pos hl] at hcf
        rw [List.filter_cons_of_pos (by simp), List.map_cons,
          List.foldl_cons, if_pos hl]
        exact ih _ locs hcf
      · rw [if_neg hl] at hcf
        rw [List.filter_cons_of_pos (by simp), List.map_cons,
          List.foldl_cons, if_neg hl]
        exact ih _ (locs ++ [l]) hcf
    · rw [List.filter_cons_of_neg (by simp [hc])]
      exact ih _ locs
        (by rw [consume_filter_other (by simpa using hc)]; exact hfil)

theorem runConsume_matched_aux {names : List Str} {cand : Str} {e : Entry}
    (hst : (e.res.status == sMis) = false) :
    ∀ (evs : List (Str × Str)) (st : List (Str × Entry)),
      st.filter (fun q => q.1 == cand) = [(cand, e)] →
      (runConsume names st evs).filter (fun q => q.1 == cand) =
        [(cand, e)] := by
  intro evs
  induction evs with
  | nil =>
    intro st hfil
    simpa [runConsume] using hfil
  | cons ev evs ih =>
    intro st hfil
    obtain ⟨c, l⟩ := ev
    by_cases hc : (c == cand) = true
    · have hceq : c = cand := eq_of_beq hc
      subst hceq
      exact ih _ (consume_filter_matched hfil hst)
    · exact ih _
        (by rw [consume_filter_other (by simpa using hc)]; exact hfil)

theorem runConsume_new_aux {names : List Str} {cand : Str} {r : CheckResult}
    (hchk : checkM names cand = some r) :
    ∀ (evs : List (Str × Str)) (st : List (Str × Entry)),
      st.filter (fun q => q.1 == cand) = [] →
      ∀ l rest,
        (evs.filter (fun ev => ev.1 == cand)).map Prod.snd = l :: rest →
        (runConsume names st evs).filter (fun q => q.1 == cand) =
          (if r.status = sMis then
            [(cand, ⟨r,
              List.intercalate (str ", ")
                (List.foldl (fun ls x => if x ∈ ls then ls else ls ++ [x])
                  [l] rest),
              List.foldl (fun ls x => if x ∈ ls then ls else ls ++ [x])
                [l] rest⟩)]
          else [(cand, ⟨r, l, [l]⟩)]) := by
  intro evs
  induction evs with
  | nil =>
    intro st _ l rest hmap
    cases hmap
  | cons ev evs ih =>
    intro st hfil l rest hmap
    obtain ⟨c, l0⟩ := ev
    by_cases hc : (c == cand) = true
    · have hceq : c = cand := eq_of_beq hc
      subst hceq
      rw [List.filter_cons_of_pos (by simp), List.map_cons] at hmap
      cases hmap
      have hcf := @consume_filter_new names st c l0 hfil
      rw [hchk] at hcf
      by_cases hr : r.status = sMis
      · rw [if_pos hr]
        have hcf2 : (consume names st c l0).filter
            (fun q => q.1 == c) =
            [(c, ⟨r, List.intercalate (str ", ") [l0], [l0]⟩)] := by
          rw [intercalate_single]
          exact hcf
        exact runConsume_mis_aux hr evs _ [l0] hcf2
      · rw [if_neg hr]
        have hb : ((⟨r, l0, [l0]⟩ : Entry).res.status == sMis) = false := by
          simp only [beq_eq_false_iff_ne, ne_eq]
          exact hr
        exact runConsume_matched_aux hb evs _ hcf
    · rw [List.filter_cons_of_neg (by simp [hc])] at hmap
      exact ih _
        (by rw [consume_filter_other (by simpa using hc)]; exact hfil)
        l rest hmap

theorem foldl_addLoc_eq :
    ∀ (ls acc : List Str),
      List.foldl (fun s x => if x ∈ s then s else s ++ [x]) acc ls =
        acc ++ dedupFirst (ls.filter (fun x => decide (x ∉ acc))) := by
  intro ls
  induction ls with
  | nil =>
    intro acc
    simp [dedupFirst_nil]
  | cons x ls ih =>
    intro acc
    rw [List.foldl_cons]
    by_cases hx : x ∈ acc
    · rw [if_pos hx, ih, List.filter_cons_of_neg (by simp [hx])]
    · rw [if_neg hx, ih, List.filter_cons_of_pos (by simp [hx]),
        dedupFirst_cons]
      rw [List.filter_filter]
      have hp : ls.filter (fun y =>
          decide (y ≠ x) && decide (y ∉ acc)) =
          ls.filter (fun y => decide (y ∉ acc ++ [x])) := by
        apply List.filter_congr
        intro a _
        by_cases h1 : a ∈ acc <;> by_cases h2 : a = x <;>
          simp [h1, h2, List.mem_append]
      rw [hp, List.append_assoc, List.singleton_append]

/-- C8: in `review_file`, when the same candidate string occurs at several
locations and classifies to some result, the final state holds exactly one
entry for that string; if the result is a mismatch its location list is the
duplicate-free (first-occurrence order) list of location labels and its
location field is their comma-join, while a matched (non-mismatch) result
keeps only the first location and ignores later occurrences. -/
theorem c8_location_merge (names : List Str) (items : List (Str × Str))
    (cand : Str) (r : CheckResult) (l : Str) (rest : List Str)
    (hchk : checkM names cand = some r)
    (hocc : ((reviewEventsAll names items).filter
      (fun ev => ev.1 == cand)).map Prod.snd = l :: rest) :
    ∃ e : Entry,
      (runConsume names [] (reviewEventsAll names items)).filter
        (fun q => q.1 == cand) = [(cand, e)] ∧
      e.res = r ∧
      (r.status = sMis →
        e.locs = dedupFirst (l :: rest) ∧ e.locs.Nodup ∧
        e.loc = List.intercalate (str ", ") e.locs) ∧
      (r.status ≠ sMis → e = ⟨r, l, [l]⟩) := by
  have hrun := runConsume_new_aux hchk (reviewEventsAll names items) []
    rfl l rest hocc
  by_cases hr : r.status = sMis
  · rw [if_pos hr] at hrun
    have hfil : rest.filter (fun x => decide (x ∉ ([l] : List Str))) =
        rest.filter (fun x => decide (x ≠ l)) := by
      apply List.filter_congr
      intro a _
      simp
    have hfold : List.foldl (fun ls x => if x ∈ ls then ls else ls ++ [x])
        [l] rest = dedupFirst (l :: rest) := by
      rw [foldl_addLoc_eq, dedupFirst_cons, List.singleton_append, hfil]
    rw [hfold] at hrun
    refine ⟨⟨r, List.intercalate (str ", ") (dedupFirst (l :: rest)),
      dedupFirst (l :: rest)⟩, hrun, rfl, ?_, ?_⟩
    · intro _
      exact ⟨rfl, nodup_dedupFirst _, rfl⟩
    · intro hne
      exact absurd hr hne
  · rw [if_neg hr] at hrun
    exact ⟨⟨r, l, [l]⟩, hrun, rfl, fun h => absurd h hr, fun _ => rfl⟩

/-- Witness for C8: master list `["(민간)부산미음동물류"]`, the bare body
occurring at locations A1 and B2; the merged entry is unique with both
locations joined. -/
theorem c8_location_merge_witness :
    checkM [str "(민간)부산미음동물류"] (str "부산미음동물류") =
      some ⟨str "부산미음동물류", sMis, some (str "(민간)부산미음동물류"),
        str "접두어 누락 → 공식: (민간)부산미음동물류"⟩ ∧
    ((reviewEventsAll [str "(민간)부산미음동물류"]
        [(str "A1", str "부산미음동물류"),
         (str "B2", str "부산미음동물류")]).filter
      (fun ev => ev.1 == str "부산미음동물류")).map Prod.snd =
      [str "A1", str "B2"] ∧
    ∃ e : Entry,
      (runConsume [str "(민간)부산미음동물류"] []
        (reviewEventsAll [str "(민간)부산미음동물류"]
          [(str "A1", str "부산미음동물류"),
           (str "B2", str "부산미음동물류")])).filter
        (fun q => q.1 == str "부산미음동물류") =
        [(str "부산미음동물류", e)] ∧
      e.res = ⟨str "부산미음동물류", sMis, some (str "(민간)부산미음동물류"),
        str "접두어 누락 → 공식: (민간)부산미음동물류"⟩ ∧
      ((⟨str "부산미음동물류", sMis, some (str "(민간)부산미음동물류"),
          str "접두어 누락 → 공식: (민간)부산미음동물류"⟩ :
        CheckResult).status = sMis →
        e.locs = dedupFirst (str "A1" :: [str "B2"]) ∧ e.locs.Nodup ∧
        e.loc = List.intercalate (str ", ") e.locs) ∧
      ((⟨str "부산미음동물류", sMis, some (str "(민간)부산미음동물류"),
          str "접두어 누락 → 공식: (민간)부산미음동물류"⟩ :
        CheckResult).status ≠ sMis →
        e = ⟨⟨str "부산미음동물류", sMis, some (str "(민간)부산미음동물류"),
          str "접두어 누락 → 공식: (민간)부산미음동물류"⟩,
          str "A1", [str "A1"]⟩) :=
  ⟨by decide, by decide,
    c8_location_merge [str "(민간)부산미음동물류"]
      [(str "A1", str "부산미음동물류"), (str "B2", str "부산미음동물류")]
      (str "부산미음동물류")
      ⟨str "부산미음동물류", sMis, some (str "(민간)부산미음동물류"),
        str "접두어 누락 → 공식: (민간)부산미음동물류"⟩
      (str "A1") [str "B2"] (by decide) (by decide)⟩
